import Mathlib

/-!
Verification of the Delta-Compression core (Rust sources under
`src/rust/delta/src/`): Karp–Rabin rolling fingerprints, the greedy,
one-pass and correcting differencing algorithms, the in-place
scheduler, the binary container codec and the appliers.

Byte strings are modelled as `List Nat` (each element an octet value);
machine integers are modelled as `Nat` with explicit `% 2^w` where the
source truncates.  Out-of-bounds slice indexing, which panics in Rust,
is modelled totally via `List.getD _ 0`; every theorem that depends on
an access being in bounds states the bound explicitly.
-/

namespace Delta

/-! ## Constants (`types.rs`) -/

def SEED_LEN : Nat := 16
def TABLE_SIZE : Nat := 1048573
def HASH_BASE : Nat := 263
def HASH_MOD : Nat := 2 ^ 61 - 1
def DELTA_MAGIC : List Nat := [68, 76, 84, 1]  -- b"DLT\x01"
def DELTA_FLAG_INPLACE : Nat := 1
def DELTA_CMD_END : Nat := 0
def DELTA_CMD_COPY : Nat := 1
def DELTA_CMD_ADD : Nat := 2
def DELTA_HEADER_SIZE : Nat := 9
def DELTA_U32_SIZE : Nat := 4
def DELTA_COPY_PAYLOAD : Nat := 12
def DELTA_ADD_HEADER : Nat := 8

/-! ## Command model (`types.rs`) -/

/-- `Command` from `types.rs`: copy from the reference, or add literal bytes. -/
inductive Command where
  | Copy (offset : Nat) (length : Nat)
  | Add (data : List Nat)
  deriving Repr, DecidableEq

/-- `PlacedCommand` from `types.rs`: a command with explicit destination. -/
inductive PlacedCommand where
  | Copy (src : Nat) (dst : Nat) (length : Nat)
  | Add (dst : Nat) (data : List Nat)
  deriving Repr, DecidableEq

inductive CyclePolicy where
  | Localmin
  | Constant
  deriving Repr, DecidableEq

/-! ## Karp–Rabin fingerprints (`hash.rs`) -/

/-- `mod_mersenne` from `hash.rs`: reduce a u128 value modulo 2^61-1 by
folding high bits twice and a final conditional subtract. -/
def mod_mersenne (x : Nat) : Nat :=
  let m := HASH_MOD
  let r := (x >>> 61) + (x &&& m)
  let r1 := if m ≤ r then r - m else r
  let r2 := (r1 >>> 61) + (r1 &&& m)
  if m ≤ r2 then r2 - m else r2

/-- `fingerprint` from `hash.rs`: Horner evaluation of
`F(X) = (x_0 b^{p-1} + ... + x_{p-1}) mod (2^61-1)` over
`data[offset..offset+p]`. -/
def fingerprint (data : List Nat) (offset p : Nat) : Nat :=
  (List.range p).foldl
    (fun h i => mod_mersenne (h * HASH_BASE + data.getD (offset + i) 0)) 0

/-- The modular-exponentiation loop inside `precompute_bp` from `hash.rs`. -/
def bpLoop (result base : Nat) (exp : Nat) : Nat :=
  if exp = 0 then result
  else
    bpLoop (if exp % 2 = 1 then mod_mersenne (result * base) else result)
      (mod_mersenne (base * base)) (exp / 2)
termination_by exp
decreasing_by exact Nat.div_lt_self (Nat.pos_of_ne_zero (by assumption)) (by omega)

/-- `precompute_bp` from `hash.rs`: `HASH_BASE^(p-1) mod HASH_MOD` by squaring. -/
def precompute_bp (p : Nat) : Nat :=
  if p = 0 then 1 else bpLoop 1 HASH_BASE (p - 1)

/-- `RollingHash` from `hash.rs`. -/
structure RollingHash where
  value : Nat
  bp : Nat
  deriving Repr

/-- `RollingHash::new` from `hash.rs`. -/
def RollingHash.new (data : List Nat) (offset p : Nat) : RollingHash :=
  { value := fingerprint data offset p, bp := precompute_bp p }

/-- `RollingHash::roll` from `hash.rs`: slide the window one byte. -/
def RollingHash.roll (rh : RollingHash) (old_byte new_byte : Nat) : RollingHash :=
  let sub := mod_mersenne (old_byte * rh.bp)
  let v := if sub ≤ rh.value then rh.value - sub else HASH_MOD - (sub - rh.value)
  { rh with value := mod_mersenne (v * HASH_BASE + new_byte) }

/-- The incremental scan of the rolling-hash identity: start at offset 0 and
roll `i` times, the `j`-th roll removing `data[j-1]` and adding `data[j+p-1]`
(as in `test_rolling_hash_full_scan` of `hash.rs`). -/
def rollScan (data : List Nat) (p : Nat) : Nat → RollingHash
  | 0 => RollingHash.new data 0 p
  | i + 1 => (rollScan data p i).roll (data.getD i 0) (data.getD (i + p) 0)

/-- A list all of whose entries are octet values. -/
def ByteList (data : List Nat) : Prop := ∀ b ∈ data, b < 256

instance (data : List Nat) : Decidable (ByteList data) :=
  inferInstanceAs (Decidable (∀ b ∈ data, b < 256))

/-- The fingerprint polynomial seen in `ZMod HASH_MOD`. -/
def fpSum (data : List Nat) (off p : Nat) : ZMod HASH_MOD :=
  ∑ j ∈ Finset.range p,
    (data.getD (off + j) 0 : ZMod HASH_MOD) * (HASH_BASE : ZMod HASH_MOD) ^ (p - 1 - j)

instance : NeZero HASH_MOD := ⟨by norm_num [HASH_MOD]⟩

/-! ## Container codec (`encoding.rs`) -/

/-- `DeltaError` from `types.rs` (the `IoError` variant is never produced by
the core decoder and is omitted). -/
inductive DeltaError where
  | InvalidFormat (msg : String)
  | UnexpectedEof
  deriving Repr, DecidableEq

/-- Big-endian bytes of `(n as u32)`, as in `u32::to_be_bytes`. -/
def u32be (n : Nat) : List Nat :=
  let m := n % 2 ^ 32
  [m / 2 ^ 24 % 256, m / 2 ^ 16 % 256, m / 2 ^ 8 % 256, m % 256]

/-- `u32::from_be_bytes` of the four bytes at `pos`, as read by `decode_delta`. -/
def readU32 (data : List Nat) (pos : Nat) : Nat :=
  data.getD pos 0 * 2 ^ 24 + data.getD (pos + 1) 0 * 2 ^ 16
    + data.getD (pos + 2) 0 * 2 ^ 8 + data.getD (pos + 3) 0

/-- The byte encoding of one placed command inside `encode_delta`. -/
def encCmd : PlacedCommand → List Nat
  | .Copy src dst length =>
      DELTA_CMD_COPY :: (u32be src ++ u32be dst ++ u32be length)
  | .Add dst data =>
      DELTA_CMD_ADD :: (u32be dst ++ u32be data.length ++ data)

/-- `encode_delta` from `encoding.rs`: magic, flags, version_size (u32 BE),
the commands, and a terminating END tag.  The source encoder takes exactly
these three inputs; it stores no content hashes. -/
def encode_delta (commands : List PlacedCommand) (inplace : Bool)
    (version_size : Nat) : List Nat :=
  DELTA_MAGIC ++ [if inplace then DELTA_FLAG_INPLACE else 0] ++ u32be version_size
    ++ (commands.map encCmd).flatten ++ [DELTA_CMD_END]

/-- The command-stream loop of `decode_delta` from `encoding.rs`. -/
def decodeLoop (data : List Nat) (pos : Nat) (acc : List PlacedCommand) :
    Except DeltaError (List PlacedCommand) :=
  if h : pos < data.length then
    let t := data.getD pos 0
    if t = DELTA_CMD_END then .ok acc
    else if t = DELTA_CMD_COPY then
      if data.length < pos + 1 + DELTA_COPY_PAYLOAD then .error .UnexpectedEof
      else
        let src := readU32 data (pos + 1)
        let dst := readU32 data (pos + 1 + 4)
        let length := readU32 data (pos + 1 + 8)
        decodeLoop data (pos + 1 + 12) (acc ++ [.Copy src dst length])
    else if t = DELTA_CMD_ADD then
      if data.length < pos + 1 + DELTA_ADD_HEADER then .error .UnexpectedEof
      else
        let dst := readU32 data (pos + 1)
        let length := readU32 data (pos + 1 + 4)
        if data.length < pos + 1 + 8 + length then .error .UnexpectedEof
        else
          decodeLoop data (pos + 1 + 8 + length)
            (acc ++ [.Add dst ((data.drop (pos + 1 + 8)).take length)])
    else .error (.InvalidFormat ("unknown command type: " ++ toString t))
  else .ok acc
termination_by data.length - pos
decreasing_by all_goals omega

/-- `decode_delta` from `encoding.rs`: validate magic and header, then walk
the command stream; returns `(commands, inplace, version_size)`. -/
def decode_delta (data : List Nat) :
    Except DeltaError (List PlacedCommand × Bool × Nat) :=
  if data.length < DELTA_HEADER_SIZE ∨ data.take 4 ≠ DELTA_MAGIC then
    .error (.InvalidFormat "not a delta file")
  else
    let inplace := data.getD 4 0 &&& DELTA_FLAG_INPLACE ≠ 0
    let version_size := readU32 data 5
    (decodeLoop data DELTA_HEADER_SIZE []).map fun cs => (cs, inplace, version_size)

/-- Modelled from the spec: the v2 container layout of spec §6 — magic
`DLT\x02`, flags, version_size, then the 16-byte `src_hash` and `dst_hash`,
then the command stream.  The spec (and the repository's own integration
tests, `tests/integration.rs`) prescribe this five-field container, but
`encoding.rs` under `src/` implements only the hash-less v1 layout above. -/
def encode_delta_v2_spec (commands : List PlacedCommand) (inplace : Bool)
    (version_size : Nat) (src_hash dst_hash : List Nat) : List Nat :=
  [68, 76, 84, 2] ++ [if inplace then DELTA_FLAG_INPLACE else 0]
    ++ u32be version_size ++ src_hash ++ dst_hash
    ++ (commands.map encCmd).flatten ++ [DELTA_CMD_END]

/-! ## Primality testing (`hash.rs`), with the `rand::thread_rng` entropy
source modelled as an explicit stream `s : Nat → Nat` of draws; the `i`-th
call of `gen_range(2..n-1)` is modelled as `2 + s i % (n - 3)`, which ranges
over exactly `[2, n-1)`. -/

/-- The loop of `power_mod` from `hash.rs` (binary exponentiation mod `m`),
with a structural fuel argument so that terms reduce in the kernel; `fuel ≥
exp` makes it agree with the unbounded Rust loop. -/
def powerModLoop : Nat → Nat → Nat → Nat → Nat → Nat
  | 0, result, _, _, _ => result
  | fuel + 1, result, b, exp, m =>
      if exp = 0 then result
      else
        powerModLoop fuel (if exp % 2 = 1 then result * b % m else result)
          (b * b % m) (exp / 2) m

/-- `power_mod` from `hash.rs`. -/
def power_mod (base exp modulus : Nat) : Nat :=
  if modulus = 1 then 0 else powerModLoop exp 1 (base % modulus) exp modulus

/-- The loop of `get_d_r` from `hash.rs`, with structural fuel; `fuel ≥ n`
makes it agree with the Rust loop for `n ≥ 1`.  (The Rust loop diverges at
`n = 0`; it is only ever called on `n - 1` with odd `n ≥ 5`.) -/
def getDRLoop : Nat → Nat → Nat × Nat
  | 0, n => (n, 0)
  | fuel + 1, n =>
      if n % 2 = 0 ∧ n ≠ 0 then
        let dr := getDRLoop fuel (n / 2)
        (dr.1, dr.2 + 1)
      else (n, 0)

/-- `get_d_r` from `hash.rs`: factor `n` as `d * 2^r` with `d` odd. -/
def get_d_r (n : Nat) : Nat × Nat := getDRLoop n n

/-- The squaring loop inside `witness` from `hash.rs`: `r` rounds starting
from `x`, returning `true` as soon as a nontrivial square root of 1 is
seen, and finally `x ≠ 1`. -/
def witnessLoop (n : Nat) : Nat → Nat → Bool
  | 0, x => x ≠ 1
  | r + 1, x =>
      let y := power_mod x 2 n
      if y = 1 ∧ x ≠ 1 ∧ x ≠ n - 1 then true else witnessLoop n r y

/-- `witness` from `hash.rs`: `true` iff `a` witnesses the compositeness
of `n`. -/
def witness (a n : Nat) : Bool :=
  let dr := get_d_r (n - 1)
  witnessLoop n dr.2 (power_mod a dr.1 n)

/-- The random-witness loop of `is_prime_mr` from `hash.rs`: `k` rounds,
the `i`-th drawing `a = 2 + s i % (n - 3)` from the stream. -/
def mrLoop (n : Nat) (s : Nat → Nat) : Nat → Nat → Bool
  | 0, _ => true
  | k + 1, i =>
      let a := 2 + s i % (n - 3)
      if witness a n then false else mrLoop n s k (i + 1)

/-- `is_prime_mr` from `hash.rs`: Miller–Rabin with `k` random witnesses
drawn from the stream `s`. -/
def is_prime_mr (n : Nat) (k : Nat) (s : Nat → Nat) : Bool :=
  if n < 2 ∨ (n ≠ 2 ∧ n % 2 = 0) then false
  else if n = 2 ∨ n = 3 then true
  else mrLoop n s k 0

/-- `is_prime` from `hash.rs`: `is_prime_mr` with confidence `k = 100`. -/
def is_prime (n : Nat) (s : Nat → Nat) : Bool := is_prime_mr n 100 s

/-- The candidate loop of `next_prime` from `hash.rs`.  Each `is_prime`
call consumes 100 draws, so the `t`-th candidate reads the stream from
index `100 * t`.  `fuel` bounds the number of candidates tried: the Rust
loop has no such bound and diverges on a stream that rejects every
candidate, so exhaustion returns `none`. -/
def nextPrimeLoop (s : Nat → Nat) : Nat → Nat → Nat → Option Nat
  | 0, _, _ => none
  | fuel + 1, candidate, idx =>
      if is_prime candidate (fun j => s (idx + j)) then some candidate
      else nextPrimeLoop s fuel (candidate + 2) (idx + 100)

/-- `next_prime` from `hash.rs`: search odd candidates upward from `n`. -/
def next_prime (n : Nat) (s : Nat → Nat) (fuel : Nat) : Option Nat :=
  if n ≤ 2 then some 2
  else nextPrimeLoop s fuel (if n % 2 = 0 then n + 1 else n) 0

/-- All integer fields of a placed command fit in a `u32`, as the binary
container requires. -/
def CmdBounded : PlacedCommand → Prop
  | .Copy src dst length => src < 2 ^ 32 ∧ dst < 2 ^ 32 ∧ length < 2 ^ 32
  | .Add dst data => dst < 2 ^ 32 ∧ data.length < 2 ^ 32

instance : DecidablePred CmdBounded := fun c => by
  unfold CmdBounded
  cases c <;> infer_instance

instance {ε α : Type} [DecidableEq ε] [DecidableEq α] : DecidableEq (Except ε α) := fun x y =>
  match x, y with
  | .ok a, .ok b =>
      if h : a = b then isTrue (by rw [h])
      else isFalse (fun hc => h (by injection hc))
  | .error a, .error b =>
      if h : a = b then isTrue (by rw [h])
      else isFalse (fun hc => h (by injection hc))
  | .ok _, .error _ => isFalse (fun hc => Except.noConfusion hc)
  | .error _, .ok _ => isFalse (fun hc => Except.noConfusion hc)

/-! ## Appliers (`apply.rs`) -/

/-- `output_size` from `apply.rs`. -/
def output_size (commands : List Command) : Nat :=
  (commands.map fun cmd =>
    match cmd with
    | .Copy _ length => length
    | .Add data => data.length).sum

/-- The bytes a command writes: `r[offset..offset+length]` for a Copy (the
out-of-bounds tail, which panics in Rust, reads as the output buffer's
zeroes), the literal data for an Add. -/
def cmdOut (r : List Nat) : Command → List Nat
  | .Copy offset length => (List.range length).map fun i => r.getD (offset + i) 0
  | .Add data => data

/-- `apply_delta` from `apply.rs`: write each command's bytes sequentially
into a zero-initialised buffer of size `output_size`. -/
def apply_delta (r : List Nat) (commands : List Command) : List Nat :=
  (commands.map (cmdOut r)).flatten

/-- Overwrite `buf[dst..dst+bytes.length]` with `bytes`. -/
def writeAt (buf : List Nat) (dst : Nat) (bytes : List Nat) : List Nat :=
  buf.take dst ++ bytes ++ buf.drop (dst + bytes.length)

/-- `apply_placed_inplace_to` from `apply.rs`: each Copy is a memmove within
the buffer (source bytes are read before the write), each Add writes its
literal payload. -/
def apply_placed_inplace_to (commands : List PlacedCommand) (buf : List Nat) : List Nat :=
  commands.foldl
    (fun buf c =>
      match c with
      | .Copy src dst length =>
          writeAt buf dst ((List.range length).map fun i => buf.getD (src + i) 0)
      | .Add dst data => writeAt buf dst data)
    buf

/-- `apply_delta_inplace` from `apply.rs`: initialise a working buffer of
size `max |R| version_size` with R (zero-padded), run the placed commands,
truncate to `version_size`. -/
def apply_delta_inplace (r : List Nat) (commands : List PlacedCommand)
    (version_size : Nat) : List Nat :=
  let buf_size := max r.length version_size
  let buf := r ++ List.replicate (buf_size - r.length) 0
  (apply_placed_inplace_to commands buf).take version_size

/-- `place_commands` from `apply.rs`: assign sequential destinations. -/
def place_commands (commands : List Command) : List PlacedCommand :=
  (commands.foldl
    (fun (st : List PlacedCommand × Nat) cmd =>
      match cmd with
      | .Copy offset length => (st.1 ++ [.Copy offset st.2 length], st.2 + length)
      | .Add data => (st.1 ++ [.Add st.2 data], st.2 + data.length))
    ([], 0)).1

/-! ## Forward / backward match extension (shared by the algorithms).
Fuel-structural so that terms reduce; fuel `|V|+1` always suffices because
each step moves the window end right by one. -/

/-- The forward extension loop `while v[vc+ml] == r[rc+ml] { ml += 1 }`
bounded by both string ends. -/
def extendFwdF : Nat → List Nat → List Nat → Nat → Nat → Nat → Nat
  | 0, _, _, _, _, ml => ml
  | fuel + 1, r, v, rc, vc, ml =>
      if vc + ml < v.length ∧ rc + ml < r.length ∧
          v.getD (vc + ml) 0 = r.getD (rc + ml) 0 then
        extendFwdF fuel r v rc vc (ml + 1)
      else ml

/-- The backward extension loop of the correcting algorithm:
`while v[vc-bwd-1] == r[r_off-bwd-1] { bwd += 1 }` bounded by both starts. -/
def extendBwdF : Nat → List Nat → List Nat → Nat → Nat → Nat → Nat
  | 0, _, _, _, _, bwd => bwd
  | fuel + 1, r, v, r_off, vc, bwd =>
      if bwd + 1 ≤ vc ∧ bwd + 1 ≤ r_off ∧
          v.getD (vc - bwd - 1) 0 = r.getD (r_off - bwd - 1) 0 then
        extendBwdF fuel r v r_off vc (bwd + 1)
      else bwd

/-! ## Greedy algorithm (`algorithm/greedy.rs`).

The fingerprint map `h_r : HashMap<u64, Vec<usize>>` is modelled by its
lookup function: the offsets stored under a fingerprint key are exactly the
seed positions of R with that fingerprint, in increasing order (the build
loop pushes `a = 0, 1, …, |R|-p` in order, and its rolling-hash values equal
`fingerprint r a p` by the rolling-hash identity proved above).  The scan's
three-branch rolling-hash dispatch likewise always produces
`fingerprint v v_c p`.  `verbose` only prints, `_q` is unused, `min_copy`
is 0 (so the effective seed length is `p`), and `use_splay` selects the
splay-tree backend whose `find`/`insert_or_get` observable behaviour is the
same map. -/

/-- The R offsets stored under fingerprint `fp`, in insertion order. -/
def greedyCandidates (r : List Nat) (p fp : Nat) : List Nat :=
  (List.range (r.length + 1 - p)).filter fun a => decide (fingerprint r a p = fp)

/-- Steps (4)-(5) of `diff_greedy`: scan the candidate list, keep seeds that
byte-verify, extend each forward, keep the longest (first found wins ties,
i.e. the smallest R offset). -/
def greedyPick (r v : List Nat) (p vc : Nat) : Option Nat × Nat :=
  (greedyCandidates r p (fingerprint v vc p)).foldl
    (fun best rcand =>
      if (r.drop rcand).take p = (v.drop vc).take p then
        let ml := extendFwdF (v.length + 1) r v rcand vc p
        if best.2 < ml then (some rcand, ml) else best
      else best)
    (none, 0)

/-- The main scan loop of `diff_greedy` (steps (3)-(7)); returns the emitted
commands and the final `v_s`.  Fuel `|V|+1` suffices for `p ≥ 1` because
`v_c` strictly increases. -/
def greedyLoop (r v : List Nat) (p : Nat) : Nat → Nat → Nat → List Command →
    List Command × Nat
  | 0, _, vs, acc => (acc, vs)
  | fuel + 1, vc, vs, acc =>
      if v.length < vc + p then (acc, vs)
      else
        let pick := greedyPick r v p vc
        if pick.2 < p then greedyLoop r v p fuel (vc + 1) vs acc
        else
          let acc1 :=
            if vs < vc then acc ++ [Command.Add ((v.drop vs).take (vc - vs))] else acc
          let acc2 := acc1 ++ [Command.Copy (pick.1.getD 0) pick.2]
          greedyLoop r v p fuel (vc + pick.2) (vc + pick.2) acc2

/-- `diff_greedy` from `algorithm/greedy.rs` (hash-table backend, `min_copy
= 0`): scan loop plus the trailing Add of the uncovered suffix. -/
def diff_greedy (r v : List Nat) (p : Nat) : List Command :=
  if v.length = 0 then []
  else
    let lw := greedyLoop r v p (v.length + 1) 0 0 []
    lw.1 ++ (if lw.2 < v.length then [Command.Add (v.drop lw.2)] else [])

/-! ## One-pass algorithm (`algorithm/onepass.rs`).

Each table slot holds `(full fingerprint, offset, version)`; the version
counter logically flushes both tables after each match.  As for greedy, the
rolling-hash dispatch is modelled by `fingerprint` directly and `min_copy =
0`. -/

/-- `ht_get` from `algorithm/onepass.rs`. -/
def ht_get (table : List (Option (Nat × Nat × Nat))) (fp q ver : Nat) : Option Nat :=
  match table.getD (fp % q) none with
  | some (sfp, off, sver) => if sver = ver ∧ sfp = fp then some off else none
  | none => none

/-- `ht_put` from `algorithm/onepass.rs` (retain-existing within a version). -/
def ht_put (table : List (Option (Nat × Nat × Nat))) (fp off q ver : Nat) :
    List (Option (Nat × Nat × Nat)) :=
  let idx := fp % q
  match table.getD idx none with
  | some (_, _, sver) =>
      if sver = ver then table else table.set idx (some (fp, off, ver))
  | none => table.set idx (some (fp, off, ver))

/-- The state of the one-pass scan loop. -/
structure OnepassState where
  hv : List (Option (Nat × Nat × Nat))
  hr : List (Option (Nat × Nat × Nat))
  ver : Nat
  rc : Nat
  vc : Nat
  vs : Nat
  acc : List Command

/-- One iteration's match search (steps (4b)): first the R fingerprint
against the V table, then the V fingerprint against the R table, each
byte-verified.  Returns `(r_m, v_m)`. -/
def onepassFindMatch (r v : List Nat) (p q : Nat) (st : OnepassState)
    (fpv fpr : Option Nat) : Option (Nat × Nat) :=
  let first :=
    match fpr with
    | some fp =>
        match ht_get st.hv fp q st.ver with
        | some v_cand =>
            if (r.drop st.rc).take p = (v.drop v_cand).take p then
              some (st.rc, v_cand)
            else none
        | none => none
    | none => none
  match first with
  | some m => some m
  | none =>
      match fpv with
      | some fp =>
          match ht_get st.hr fp q st.ver with
          | some r_cand =>
              if (v.drop st.vc).take p = (r.drop r_cand).take p then
                some (r_cand, st.vc)
              else none
          | none => none
      | none => none

/-- The main loop of `diff_onepass` (steps (3)-(7)); `none` models the
(unreachable for `p ≥ 1`) exhaustion of the iteration bound. -/
def onepassLoop (r v : List Nat) (p q : Nat) :
    Nat → OnepassState → Option (List Command × Nat)
  | 0, _ => none
  | fuel + 1, st =>
      let can_v := st.vc + p ≤ v.length
      let can_r := st.rc + p ≤ r.length
      if ¬ can_v ∧ ¬ can_r then some (st.acc, st.vs)
      else
        let fpv : Option Nat := if can_v then some (fingerprint v st.vc p) else none
        let fpr : Option Nat := if can_r then some (fingerprint r st.rc p) else none
        let hv1 := match fpv with
          | some fp => ht_put st.hv fp st.vc q st.ver
          | none => st.hv
        let hr1 := match fpr with
          | some fp => ht_put st.hr fp st.rc q st.ver
          | none => st.hr
        let st1 := { st with hv := hv1, hr := hr1 }
        match onepassFindMatch r v p q st1 fpv fpr with
        | none =>
            onepassLoop r v p q fuel { st1 with vc := st.vc + 1, rc := st.rc + 1 }
        | some (r_m, v_m) =>
            let ml := extendFwdF (v.length + 1) r v r_m v_m 0
            if ml < p then
              onepassLoop r v p q fuel { st1 with vc := st.vc + 1, rc := st.rc + 1 }
            else
              let acc1 :=
                if st.vs < v_m then
                  st.acc ++ [Command.Add ((v.drop st.vs).take (v_m - st.vs))]
                else st.acc
              let acc2 := acc1 ++ [Command.Copy r_m ml]
              onepassLoop r v p q fuel
                { hv := hv1, hr := hr1, ver := st.ver + 1,
                  rc := r_m + ml, vc := v_m + ml, vs := v_m + ml, acc := acc2 }

/-- `diff_onepass` with the auto-sized table capacity given directly (the
randomized `next_prime` sizing is applied by `diff_onepass` below). -/
def diff_onepassCore (r v : List Nat) (p qsize : Nat) : Option (List Command) :=
  if v.length = 0 then some []
  else
    (onepassLoop r v p qsize ((v.length + 2) * (v.length + r.length + 2))
        ⟨List.replicate qsize none, List.replicate qsize none, 0, 0, 0, 0, []⟩).map
      fun out =>
        out.1 ++ (if out.2 < v.length then [Command.Add (v.drop out.2)] else [])

/-- `diff_onepass` from `algorithm/onepass.rs`: auto-size the table to
`next_prime (max q (num_seeds / p))` (randomized Miller–Rabin, stream `s`),
then run the scan. -/
def diff_onepass (r v : List Nat) (p q : Nat) (s : Nat → Nat) (fuel : Nat) :
    Option (List Command) :=
  if v.length = 0 then some []
  else
    let num_seeds := if p ≤ r.length then r.length - p + 1 else 0
    (next_prime (max q (num_seeds / p)) s fuel).bind fun qsize =>
      diff_onepassCore r v p qsize

/-! ## Correcting 1.5-pass algorithm (`algorithm/correcting.rs`).

`min_copy = 0`, so `effective_min = p`.  The hash-table backend is used
(`use_splay = false`); the splay path realises the same first-found map. -/

/-- `BufEntry` from `algorithm/correcting.rs`. -/
structure BufEntry where
  v_start : Nat
  v_end : Nat
  cmd : Command
  dummy : Bool
  deriving Repr, DecidableEq

/-- `flush_buf`: drain the buffer, emitting non-dummy commands in order. -/
def flushBuf (buf : List BufEntry) (acc : List Command) : List Command :=
  acc ++ (buf.filter fun e => !e.dummy).map (·.cmd)

/-- Push one entry onto the back of the bounded buffer, spilling the oldest
entry to the output stream when the buffer is at capacity.  (At `buf_cap =
0` with an empty buffer the Rust code would panic on `pop_front().unwrap()`;
the model keeps the entry.) -/
def pushBuf (buf : List BufEntry) (acc : List Command) (cap : Nat) (e : BufEntry) :
    List BufEntry × List Command :=
  if cap ≤ buf.length then
    match buf with
    | [] => ([e], acc)
    | oldest :: rest =>
        (rest ++ [e], if oldest.dummy then acc else acc ++ [oldest.cmd])
  else (buf ++ [e], acc)

/-- Step (6b)'s backward walk over the buffer (given in back-to-front
order): skip dummies, absorb entries wholly inside the new match, trim a
partially overlapped Add to `[v_start, v_m)`, stop at a partially
overlapped Copy or at the first non-overlapping entry.  Returns the
remaining buffer (still back-to-front) and the effective start. -/
def tailWalk (v : List Nat) (v_m match_end : Nat) :
    List BufEntry → Nat → List BufEntry × Nat
  | [], es => ([], es)
  | tail :: rest, es =>
      if tail.dummy then tailWalk v v_m match_end rest es
      else if v_m ≤ tail.v_start ∧ tail.v_end ≤ match_end then
        tailWalk v v_m match_end rest (min es tail.v_start)
      else if v_m < tail.v_end ∧ tail.v_start < v_m then
        match tail.cmd with
        | .Add _ =>
            let keep := v_m - tail.v_start
            if 0 < keep then
              ({ tail with
                  cmd := Command.Add ((v.drop tail.v_start).take (v_m - tail.v_start)),
                  v_end := v_m } :: rest,
                min es v_m)
            else (rest, min es v_m)
        | .Copy _ _ => (tail :: rest, es)
      else (tail :: rest, es)

/-- Step (1) of `diff_correcting`: index R's checkpoint seeds, first-found
per slot.  A seed `a` passes iff `(fp % f_size) % m = k`; its slot is
`(fp % f_size) / m` (skipped if `≥ cap`, the source's safety check). -/
def correctingBuild (r : List Nat) (p num_seeds cap f_size m k : Nat) :
    List (Option (Nat × Nat)) :=
  (List.range num_seeds).foldl
    (fun tbl a =>
      let fp := fingerprint r a p
      let f := fp % f_size
      if f % m ≠ k then tbl
      else
        let i := f / m
        if cap ≤ i then tbl
        else
          match tbl.getD i none with
          | none => tbl.set i (some (fp, a))
          | some _ => tbl)
    (List.replicate cap none)

/-- The V-scan loop of `diff_correcting` (steps (3)-(7)): checkpoint filter,
table lookup with full-fingerprint check and byte verification, forward and
backward extension, then encoding with tail correction.  Returns the final
`(v_s, buffer, emitted)`; `none` models exhaustion of the iteration bound,
unreachable for `p ≥ 1`. -/
def correctingLoop (r v : List Nat) (p cap f_size m k buf_cap : Nat)
    (table : List (Option (Nat × Nat))) :
    Nat → Nat → Nat → List BufEntry → List Command →
    Option (Nat × List BufEntry × List Command)
  | 0, _, _, _, _ => none
  | fuel + 1, vc, vs, buf, acc =>
      if v.length < vc + p then some (vs, buf, acc)
      else
        let fp_v := fingerprint v vc p
        let f_v := fp_v % f_size
        if f_v % m ≠ k then correctingLoop r v p cap f_size m k buf_cap table fuel (vc + 1) vs buf acc
        else
          match table.getD (f_v / m) none with
          | none => correctingLoop r v p cap f_size m k buf_cap table fuel (vc + 1) vs buf acc
          | some (sfp, offset) =>
              if sfp ≠ fp_v then
                correctingLoop r v p cap f_size m k buf_cap table fuel (vc + 1) vs buf acc
              else if (r.drop offset).take p ≠ (v.drop vc).take p then
                correctingLoop r v p cap f_size m k buf_cap table fuel (vc + 1) vs buf acc
              else
                let fwd := extendFwdF (v.length + 1) r v offset vc p
                let bwd := extendBwdF (vc + 1) r v offset vc 0
                let v_m := vc - bwd
                let r_m := offset - bwd
                let ml := bwd + fwd
                let match_end := v_m + ml
                if ml < p then
                  correctingLoop r v p cap f_size m k buf_cap table fuel (vc + 1) vs buf acc
                else if vs ≤ v_m then
                  let st1 :=
                    if vs < v_m then
                      pushBuf buf acc buf_cap
                        ⟨vs, v_m, Command.Add ((v.drop vs).take (v_m - vs)), false⟩
                    else (buf, acc)
                  let st2 := pushBuf st1.1 st1.2 buf_cap
                    ⟨v_m, match_end, Command.Copy r_m ml, false⟩
                  correctingLoop r v p cap f_size m k buf_cap table fuel
                    match_end match_end st2.1 st2.2
                else
                  let walk := tailWalk v v_m match_end buf.reverse vs
                  let es := walk.2
                  let adj := es - v_m
                  let new_len := match_end - es
                  let st2 :=
                    if 0 < new_len then
                      pushBuf walk.1.reverse acc buf_cap
                        ⟨es, match_end, Command.Copy (r_m + adj) new_len, false⟩
                    else (walk.1.reverse, acc)
                  correctingLoop r v p cap f_size m k buf_cap table fuel
                    match_end match_end st2.1 st2.2

/-- `diff_correcting` with the two table sizes `cap = |C|` and `f_size =
|F|` given directly (the randomized `next_prime` sizing is applied by
`diff_correcting` below). -/
def diff_correctingCore (r v : List Nat) (p cap f_size buf_cap : Nat) :
    Option (List Command) :=
  if v.length = 0 then some []
  else
    let num_seeds := if p ≤ r.length then r.length - p + 1 else 0
    let m := if f_size ≤ cap then 1 else (f_size + cap - 1) / cap
    let k := if p ≤ v.length then fingerprint v (v.length / 2) p % f_size % m else 0
    let table := correctingBuild r p num_seeds cap f_size m k
    (correctingLoop r v p cap f_size m k buf_cap table (v.length + 1) 0 0 [] []).map
      fun out =>
        let acc := flushBuf out.2.1 out.2.2
        acc ++ (if out.1 < v.length then [Command.Add (v.drop out.1)] else [])

/-- The V offset whose fingerprint picks the checkpoint class `k` in
`diff_correcting` (p. 348's biased choice): `|V| / 2`.  The Rust code reads
`v[|V|/2 .. |V|/2 + p)` there whenever `|V| ≥ p`, which is out of bounds —
a panic — whenever `|V|/2 + p > |V|`. -/
def correcting_k_offset (v : List Nat) : Nat := v.length / 2

/-- `diff_correcting` from `algorithm/correcting.rs`: auto-size `|C|` and
`|F|` with the randomized `next_prime` (streams `s1`, `s2` for the two
calls), then index R and scan V. -/
def diff_correcting (r v : List Nat) (p q buf_cap : Nat)
    (s1 s2 : Nat → Nat) (fuel : Nat) : Option (List Command) :=
  if v.length = 0 then some []
  else
    let num_seeds := if p ≤ r.length then r.length - p + 1 else 0
    (if 0 < num_seeds then next_prime (max q (2 * num_seeds / p)) s1 fuel
     else next_prime q s1 fuel).bind fun cap =>
      (if 0 < num_seeds then next_prime (2 * num_seeds) s2 fuel
       else some 1).bind fun f_size =>
        diff_correctingCore r v p cap f_size buf_cap

/-! ## In-place conversion (`inplace.rs`): Tarjan SCC, cycle search,
Kahn scheduling with cycle breaking, and `make_inplace`.  All loops are
fuel-structural; `none` models fuel exhaustion (never reached on the
concrete inputs below). -/

/-- State of the iterative Tarjan SCC traversal (`tarjan_scc`): `index` is
`none` for unvisited (`usize::MAX` in the source), `callStack` and `tstack`
have their tops at the head. -/
structure TarjanSt where
  counter : Nat
  index : List (Option Nat)
  lowlink : List Nat
  onStack : List Bool
  tstack : List Nat
  callStack : List (Nat × Nat)
  sccs : List (List Nat)
  deriving Repr

/-- Pop entries off the Tarjan stack through the first occurrence of `v`:
returns (popped run including `v`, remaining stack). -/
def popUntil (v : Nat) : List Nat → List Nat × List Nat
  | [] => ([], [])
  | w :: rest =>
      if w = v then ([w], rest)
      else
        let pr := popUntil v rest
        (w :: pr.1, pr.2)

/-- One DFS run of `tarjan_scc` (the inner `while let` loop), driven until
the explicit call stack empties. -/
def tarjanStep (adj : List (List Nat)) : Nat → TarjanSt → Option TarjanSt
  | 0, _ => none
  | fuel + 1, st =>
      match st.callStack with
      | [] => some st
      | (v, ni) :: cs =>
          let nbrs := adj.getD v []
          if ni < nbrs.length then
            let w := nbrs.getD ni 0
            let cs1 := (v, ni + 1) :: cs
            match st.index.getD w none with
            | none =>
                tarjanStep adj fuel
                  { st with
                      index := st.index.set w (some st.counter),
                      lowlink := st.lowlink.set w st.counter,
                      counter := st.counter + 1,
                      onStack := st.onStack.set w true,
                      tstack := w :: st.tstack,
                      callStack := (w, 0) :: cs1 }
            | some iw =>
                if st.onStack.getD w false ∧ iw < st.lowlink.getD v 0 then
                  tarjanStep adj fuel
                    { st with lowlink := st.lowlink.set v iw, callStack := cs1 }
                else tarjanStep adj fuel { st with callStack := cs1 }
          else
            let llv := st.lowlink.getD v 0
            let st1 :=
              match cs with
              | (parent, _) :: _ =>
                  if llv < st.lowlink.getD parent 0 then
                    { st with lowlink := st.lowlink.set parent llv, callStack := cs }
                  else { st with callStack := cs }
              | [] => { st with callStack := cs }
            if some llv = st.index.getD v none then
              let pr := popUntil v st1.tstack
              tarjanStep adj fuel
                { st1 with
                    tstack := pr.2,
                    onStack := pr.1.foldl (fun os w => os.set w false) st1.onStack,
                    sccs := st1.sccs ++ [pr.1] }
            else tarjanStep adj fuel st1

/-- The outer `for start in 0..n` loop of `tarjan_scc`. -/
def tarjanOuter (adj : List (List Nat)) (fuel : Nat) :
    List Nat → TarjanSt → Option TarjanSt
  | [], st => some st
  | start :: rest, st =>
      match st.index.getD start none with
      | some _ => tarjanOuter adj fuel rest st
      | none =>
          match tarjanStep adj fuel
              { st with
                  index := st.index.set start (some st.counter),
                  lowlink := st.lowlink.set start st.counter,
                  counter := st.counter + 1,
                  onStack := st.onStack.set start true,
                  tstack := start :: st.tstack,
                  callStack := [(start, 0)] } with
          | none => none
          | some st2 => tarjanOuter adj fuel rest st2

/-- `tarjan_scc` from `inplace.rs`: SCCs in reverse topological order. -/
def tarjan_scc (adj : List (List Nat)) (n fuel : Nat) : Option (List (List Nat)) :=
  (tarjanOuter adj fuel (List.range n)
      ⟨0, List.replicate n none, List.replicate n 0, List.replicate n false,
        [], [], []⟩).map (·.sccs)

/-- Index of the first occurrence of `w` (the `position` call on the DFS
path in `find_cycle_in_scc`). -/
def firstIdx (w : Nat) : List Nat → Nat
  | [] => 0
  | x :: xs => if x = w then 0 else firstIdx w xs + 1

/-- The DFS of `find_cycle_in_scc` starting from one root: the explicit
`stack` has its top at the head, `path` grows at the back.  Returns the
found cycle (if any) and the updated colouring. -/
def findCycleStep (adj : List (List Nat)) (sid : Nat) (sccId : List Nat)
    (removed : List Bool) :
    Nat → List Nat → List Nat → List (Nat × Nat) →
    Option (Option (List Nat) × List Nat)
  | 0, _, _, _ => none
  | _ + 1, color, _, [] => some (none, color)
  | fuel + 1, color, path, (v, ni) :: rest =>
      let nbrs := adj.getD v []
      if ni < nbrs.length then
        let w := nbrs.getD ni 0
        if sccId.getD w (sid + 1) ≠ sid ∨ removed.getD w true then
          findCycleStep adj sid sccId removed fuel color path ((v, ni + 1) :: rest)
        else if color.getD w 0 = 1 then
          some (some (path.drop (firstIdx w path)),
            path.foldl (fun c u => c.set u 0) color)
        else if color.getD w 0 = 0 then
          findCycleStep adj sid sccId removed fuel (color.set w 1) (path ++ [w])
            ((w, 0) :: (v, ni + 1) :: rest)
        else findCycleStep adj sid sccId removed fuel color path ((v, ni + 1) :: rest)
      else
        findCycleStep adj sid sccId removed fuel (color.set v 2) path.dropLast rest

/-- The outer scan of `find_cycle_in_scc` over the SCC's member list,
resuming at `scanStart`.  Returns (cycle if found, colouring, scan
position). -/
def findCycleScan (adj : List (List Nat)) (sid : Nat) (sccId : List Nat)
    (removed : List Bool) (scc : List Nat) (dfsFuel : Nat) :
    Nat → Nat → List Nat → Option (Option (List Nat) × List Nat × Nat)
  | 0, _, _ => none
  | fuel + 1, ss, color =>
      if ss < scc.length then
        let start := scc.getD ss 0
        if removed.getD start true ∨ color.getD start 0 ≠ 0 then
          findCycleScan adj sid sccId removed scc dfsFuel fuel (ss + 1) color
        else
          match findCycleStep adj sid sccId removed dfsFuel (color.set start 1)
              [start] [(start, 0)] with
          | none => none
          | some (some cyc, color2) => some (some cyc, color2, ss)
          | some (none, color2) =>
              findCycleScan adj sid sccId removed scc dfsFuel fuel (ss + 1) color2
      else some (none, color, ss)

/-- Extract the queued vertex with the least `(copy_length, index)` key (the
`BinaryHeap<Reverse<(usize, usize)>>` pop); returns it and the rest. -/
def popMin (ci : List (Nat × Nat × Nat)) : List Nat → Option (Nat × List Nat)
  | [] => none
  | v :: rest =>
      match popMin ci rest with
      | none => some (v, [])
      | some (m, rest2) =>
          let lv := (ci.getD v (0, 0, 0)).2.2
          let lm := (ci.getD m (0, 0, 0)).2.2
          if lv < lm ∨ (lv = lm ∧ v ≤ m) then some (v, rest)
          else some (m, v :: rest2)

/-- First minimiser of `(copy_length, index)` over a cycle (`min_by_key`). -/
def minByLenIdx (ci : List (Nat × Nat × Nat)) : List Nat → Nat
  | [] => 0
  | i :: rest =>
      match rest with
      | [] => i
      | _ =>
          let m := minByLenIdx ci rest
          let li := (ci.getD i (0, 0, 0)).2.2
          let lm := (ci.getD m (0, 0, 0)).2.2
          if li < lm ∨ (li = lm ∧ i ≤ m) then i else m

/-- Mutable state of the Kahn scheduling loop in `make_inplace`. -/
structure KahnSt where
  removed : List Bool
  in_deg : List Nat
  ready : List Nat
  topo : List Nat
  add_info : List (Nat × List Nat)
  scc_active : List Nat
  color : List Nat
  scc_ptr : Nat
  scan_pos : Nat
  processed : Nat
  deriving Repr

/-- Mark `v` processed: append to the order, maintain `scc_active`, and
decrement the in-degree of each unremoved neighbour, queueing those that
reach zero. -/
def kahnVisit (adj : List (List Nat))
    (sccId : List Nat) (sentinel : Nat) (emit : Bool) (st : KahnSt) (v : Nat)
    (rest : List Nat) : KahnSt :=
  let removed2 := st.removed.set v true
  let sa :=
    if sccId.getD v sentinel ≠ sentinel then
      st.scc_active.set (sccId.getD v sentinel)
        (st.scc_active.getD (sccId.getD v sentinel) 0 - 1)
    else st.scc_active
  let dr := (adj.getD v []).foldl
    (fun (p : List Nat × List Nat) w =>
      if removed2.getD w true then p
      else
        let d := p.1.getD w 0 - 1
        (p.1.set w d, if d = 0 then p.2 ++ [w] else p.2))
    (st.in_deg, rest)
  { st with
      removed := removed2, scc_active := sa, in_deg := dr.1,
      ready := dr.2, topo := if emit then st.topo ++ [v] else st.topo,
      processed := st.processed + 1 }

/-- Drain the ready queue (the inner `while let Some(...) = heap.pop()`). -/
def kahnDrain (adj : List (List Nat)) (ci : List (Nat × Nat × Nat))
    (sccId : List Nat) (sentinel : Nat) : Nat → KahnSt → Option KahnSt
  | 0, _ => none
  | fuel + 1, st =>
      match popMin ci st.ready with
      | none => some st
      | some (v, rest) =>
          if st.removed.getD v true then
            kahnDrain adj ci sccId sentinel fuel { st with ready := rest }
          else
            kahnDrain adj ci sccId sentinel fuel
              (kahnVisit adj sccId sentinel true st v rest)

/-- The Localmin victim search: advance `scc_ptr` past exhausted SCCs, run
`find_cycle_in_scc` on the current one, fall back to the first unremoved
vertex when the SCC list is exhausted.  Returns (victim, scc_ptr, scan_pos,
colouring). -/
def localminLoop (adj : List (List Nat)) (ci : List (Nat × Nat × Nat))
    (sccId : List Nat) (removed : List Bool) (n : Nat)
    (scc_list : List (List Nat)) (scc_active : List Nat) :
    Nat → Nat → Nat → List Nat → Option (Nat × Nat × Nat × List Nat)
  | 0, _, _, _ => none
  | fuel + 1, ptr, sp, color =>
      if ptr < scc_list.length then
        if scc_active.getD ptr 0 = 0 then
          localminLoop adj ci sccId removed n scc_list scc_active fuel
            (ptr + 1) 0 color
        else
          match findCycleScan adj ptr sccId removed (scc_list.getD ptr []) fuel
              fuel sp color with
          | none => none
          | some (some cyc, color2, sp2) =>
              some (minByLenIdx ci cyc, ptr, sp2, color2)
          | some (none, color2, _) =>
              localminLoop adj ci sccId removed n scc_list scc_active fuel
                (ptr + 1) 0 color2
      else
        match (List.range n).find? (fun i => !(removed.getD i true)) with
        | some v => some (v, ptr, sp, color)
        | none => none

/-- The outer `while processed < n` loop of `make_inplace`: drain, then on a
stall pick a victim by policy, materialise its copy as an Add from R, and
continue. -/
def kahnLoop (r : List Nat) (adj : List (List Nat)) (ci : List (Nat × Nat × Nat))
    (sccId : List Nat) (sentinel n : Nat) (scc_list : List (List Nat))
    (policy : CyclePolicy) : Nat → KahnSt → Option KahnSt
  | 0, _ => none
  | fuel + 1, st =>
      match kahnDrain adj ci sccId sentinel (fuel + 1) st with
      | none => none
      | some st2 =>
          if n ≤ st2.processed then some st2
          else
            let pick : Option (Nat × Nat × Nat × List Nat) :=
              match policy with
              | .Constant =>
                  match (List.range n).find? (fun i => !(st2.removed.getD i true)) with
                  | some v => some (v, st2.scc_ptr, st2.scan_pos, st2.color)
                  | none => none
              | .Localmin =>
                  localminLoop adj ci sccId st2.removed n scc_list st2.scc_active
                    (fuel + 1) st2.scc_ptr st2.scan_pos st2.color
            match pick with
            | none => none
            | some (victim, ptr2, sp2, color2) =>
                let e := ci.getD victim (0, 0, 0)
                let st3 := { st2 with
                    add_info := st2.add_info ++ [(e.2.1, (r.drop e.1).take e.2.2)],
                    color := color2, scc_ptr := ptr2, scan_pos := sp2 }
                kahnLoop r adj ci sccId sentinel n scc_list policy fuel
                  (kahnVisit adj sccId sentinel false st3 victim st3.ready)

/-- Step 1 of `make_inplace`: split the command list into copy records
`(src, dst, length)` (indexed by position) and placed adds. -/
def inplacePlace (commands : List Command) :
    List (Nat × Nat × Nat) × List (Nat × List Nat) :=
  let st := commands.foldl
    (fun (st : List (Nat × Nat × Nat) × List (Nat × List Nat) × Nat) cmd =>
      match cmd with
      | .Copy offset length => (st.1 ++ [(offset, st.2.2, length)], st.2.1, st.2.2 + length)
      | .Add data => (st.1, st.2.1 ++ [(st.2.2, data)], st.2.2 + data.length))
    ([], [], 0)
  (st.1, st.2.1)

/-- Step 2 of `make_inplace`: the CRWI edge lists, via the sweep over writes
sorted by destination (`partition_point` = count of smaller starts). -/
def crwiAdj (ci : List (Nat × Nat × Nat)) (n : Nat) : List (List Nat) :=
  let write_sorted := (List.range n).foldl
    (fun acc j =>
      let dj := (ci.getD j (0, 0, 0)).2.1
      let idx := acc.foldl (fun k j2 =>
        if (ci.getD j2 (0, 0, 0)).2.1 ≤ dj then k + 1 else k) 0
      acc.take idx ++ [j] ++ acc.drop idx)
    ([] : List Nat)
  let write_starts := write_sorted.map fun j => (ci.getD j (0, 0, 0)).2.1
  (List.range n).map fun i =>
    let e := ci.getD i (0, 0, 0)
    let si := e.1
    let read_end := si + e.2.2
    let lo := write_starts.foldl (fun k ws => if ws < si then k + 1 else k) 0
    let hi := write_starts.foldl (fun k ws => if ws < read_end then k + 1 else k) 0
    (if 0 < lo then
      let j := write_sorted.getD (lo - 1) 0
      let ej := ci.getD j (0, 0, 0)
      if j ≠ i ∧ si < ej.2.1 + ej.2.2 then [j] else []
    else []) ++
    ((List.range' lo (hi - lo)).filterMap fun k =>
      let j := write_sorted.getD k 0
      if j ≠ i then some j else none)

/-- In-degrees of the CRWI digraph. -/
def crwiInDeg (adj : List (List Nat)) (n : Nat) : List Nat :=
  adj.foldl (fun deg l => l.foldl (fun d j => d.set j (d.getD j 0 + 1)) deg)
    (List.replicate n 0)

/-- `make_inplace` from `inplace.rs`: place commands, build the CRWI
digraph, Tarjan-decompose, Kahn-schedule with policy-directed cycle
breaking, and emit copies in topological order followed by all adds. -/
def make_inplace (r : List Nat) (commands : List Command) (policy : CyclePolicy)
    (fuel : Nat) : Option (List PlacedCommand) :=
  if commands.isEmpty then some []
  else
    let pl := inplacePlace commands
    let ci := pl.1
    let add_info := pl.2
    let n := ci.length
    if n = 0 then some (add_info.map fun a => PlacedCommand.Add a.1 a.2)
    else
      let adj := crwiAdj ci n
      let in_deg := crwiInDeg adj n
      match tarjan_scc adj n fuel with
      | none => none
      | some sccs =>
          let scc_list := sccs.filter fun s => 1 < s.length
          let sentinel := scc_list.length
          let sccId := scc_list.enum.foldl
            (fun sid p => p.2.foldl (fun s v => s.set v p.1) sid)
            (List.replicate n sentinel)
          let st0 : KahnSt :=
            { removed := List.replicate n false, in_deg := in_deg,
              ready := (List.range n).filter fun i => in_deg.getD i 0 = 0,
              topo := [], add_info := add_info,
              scc_active := scc_list.map (·.length),
              color := List.replicate n 0, scc_ptr := 0, scan_pos := 0,
              processed := 0 }
          match kahnLoop r adj ci sccId sentinel n scc_list policy fuel st0 with
          | none => none
          | some stF =>
              some ((stF.topo.map fun i =>
                  let e := ci.getD i (0, 0, 0)
                  PlacedCommand.Copy e.1 e.2.1 e.2.2) ++
                stF.add_info.map fun a => PlacedCommand.Add a.1 a.2)

/-- Total literal bytes carried by Add commands in a placed sequence. -/
def placedAddBytes (cs : List PlacedCommand) : Nat :=
  (cs.map fun c =>
    match c with
    | .Add _ data => data.length
    | .Copy _ _ _ => 0).sum

/-! ## Specification predicates for the algorithm outputs. -/

/-- The number of output bytes one command contributes. -/
def cmdLen : Command → Nat
  | .Copy _ length => length
  | .Add data => data.length

/-- A command's Copy window lies inside the reference. -/
def CmdInBounds (rlen : Nat) : Command → Prop
  | .Copy offset length => offset + length ≤ rlen
  | .Add _ => True

instance (rlen : Nat) : DecidablePred (CmdInBounds rlen) := fun c => by
  unfold CmdInBounds
  cases c <;> infer_instance

/-- The correcting algorithm's lookback buffer as a tiling of `[w, vs)`:
consecutive non-dummy entries whose interval lengths equal their command
sizes, all Copy windows in bounds. -/
def BufChain (rlen : Nat) : Nat → List BufEntry → Nat → Prop
  | w, [], vs => w = vs
  | w, e :: rest, vs =>
      e.v_start = w ∧ e.dummy = false ∧ w ≤ e.v_end ∧
      cmdLen e.cmd = e.v_end - e.v_start ∧ CmdInBounds rlen e.cmd ∧
      BufChain rlen e.v_end rest vs

/-! ### Arithmetic facts about the fingerprint core -/

theorem HASH_MOD_pos : 0 < HASH_MOD := by norm_num [HASH_MOD]

theorem mod_mersenne_eq {x : Nat} (hx : x < 2 ^ 128) :
    mod_mersenne x = x % HASH_MOD := by
  have h61 : (2 : Nat) ^ 61 = 2305843009213693952 := by norm_num
  have hM : HASH_MOD = 2305843009213693951 := by norm_num [HASH_MOD]
  have hland : ∀ y : Nat, y &&& 2305843009213693951 = y % 2305843009213693952 :=
    fun y => by
      have := Nat.and_pow_two_sub_one_eq_mod y 61
      rw [h61] at this
      simpa using this
  have hx' : x < 340282366920938463463374607431768211456 := by
    have : (2 : Nat) ^ 128 = 340282366920938463463374607431768211456 := by norm_num
    omega
  unfold mod_mersenne
  simp only [Nat.shiftRight_eq_div_pow, hM, hland, h61]
  split_ifs <;> omega

theorem mod_mersenne_lt {x : Nat} (hx : x < 2 ^ 128) :
    mod_mersenne x < HASH_MOD := by
  rw [mod_mersenne_eq hx]
  exact Nat.mod_lt _ HASH_MOD_pos

theorem fingerprint_zero (data : List Nat) (off : Nat) :
    fingerprint data off 0 = 0 := rfl

theorem fingerprint_succ (data : List Nat) (off p : Nat) :
    fingerprint data off (p + 1) =
      mod_mersenne (fingerprint data off p * HASH_BASE + data.getD (off + p) 0) := by
  unfold fingerprint
  rw [List.range_succ, List.foldl_append]
  rfl

theorem ByteList.getD_lt {data : List Nat} (h : ByteList data) (i : Nat) :
    data.getD i 0 < 256 := by
  induction data generalizing i with
  | nil => simp [List.getD]
  | cons a l ih =>
    cases i with
    | zero => exact h a (List.mem_cons_self a l)
    | succ i =>
      exact ih (fun b hb => h b (List.mem_cons_of_mem a hb)) i

theorem fingerprint_lt {data : List Nat} (h : ByteList data) (off p : Nat) :
    fingerprint data off p < HASH_MOD := by
  induction p with
  | zero => rw [fingerprint_zero]; exact HASH_MOD_pos
  | succ p ih =>
    rw [fingerprint_succ]
    apply mod_mersenne_lt
    have h1 := h.getD_lt (off + p)
    have hM : HASH_MOD = 2305843009213693951 := by norm_num [HASH_MOD]
    have h128 : (2:Nat) ^ 128 = 340282366920938463463374607431768211456 := by norm_num
    rw [hM] at ih
    rw [show HASH_BASE = 263 from rfl, h128]
    omega

theorem fingerprint_cast {data : List Nat} (h : ByteList data) (off p : Nat) :
    ((fingerprint data off p : Nat) : ZMod HASH_MOD) = fpSum data off p := by
  induction p with
  | zero => simp [fingerprint_zero, fpSum]
  | succ p ih =>
    rw [fingerprint_succ]
    have hb : fingerprint data off p * HASH_BASE + data.getD (off + p) 0 < 2 ^ 128 := by
      have h1 := fingerprint_lt h off p
      have h2 := h.getD_lt (off + p)
      have hM : HASH_MOD = 2305843009213693951 := by norm_num [HASH_MOD]
      have h128 : (2:Nat) ^ 128 = 340282366920938463463374607431768211456 := by norm_num
      rw [hM] at h1
      rw [show HASH_BASE = 263 from rfl, h128]
      omega
    rw [mod_mersenne_eq hb, ZMod.natCast_mod]
    push_cast
    rw [ih]
    unfold fpSum
    rw [Finset.sum_range_succ]
    have hstep : ∀ j ∈ Finset.range p,
        (data.getD (off + j) 0 : ZMod HASH_MOD) * (HASH_BASE : ZMod HASH_MOD) ^ (p + 1 - 1 - j)
          = ((data.getD (off + j) 0 : ZMod HASH_MOD) * (HASH_BASE : ZMod HASH_MOD) ^ (p - 1 - j))
              * (HASH_BASE : ZMod HASH_MOD) := by
      intro j hj
      rw [Finset.mem_range] at hj
      rw [mul_assoc, ← pow_succ]
      congr 2
      omega
    rw [Finset.sum_congr rfl hstep, ← Finset.sum_mul]
    simp

theorem bpLoop_eq (result base exp : Nat)
    (hr : result < HASH_MOD) (hb : base < HASH_MOD) :
    bpLoop result base exp = result * base ^ exp % HASH_MOD := by
  induction exp using Nat.strong_induction_on generalizing result base with
  | _ exp ih =>
    rw [bpLoop]
    by_cases h0 : exp = 0
    · simp [h0, Nat.mod_eq_of_lt hr]
    · simp only [h0, if_false]
      have hlt : exp / 2 < exp := Nat.div_lt_self (Nat.pos_of_ne_zero h0) (by omega)
      have hM2 : HASH_MOD * HASH_MOD < 2 ^ 128 := by norm_num [HASH_MOD]
      have hbb : mod_mersenne (base * base) = base * base % HASH_MOD :=
        mod_mersenne_eq (by nlinarith)
      have hbb_lt : base * base % HASH_MOD < HASH_MOD := Nat.mod_lt _ HASH_MOD_pos
      have hexp : exp = 2 * (exp / 2) + exp % 2 := (Nat.div_add_mod exp 2).symm ▸ by omega
      by_cases hpar : exp % 2 = 1
      · rw [if_pos hpar]
        have hrb : mod_mersenne (result * base) = result * base % HASH_MOD :=
          mod_mersenne_eq (by nlinarith)
        rw [hrb, hbb, ih _ hlt _ _ (Nat.mod_lt _ HASH_MOD_pos) hbb_lt]
        have e1 : (result * base % HASH_MOD) * ((base * base % HASH_MOD) ^ (exp / 2))
            ≡ (result * base) * ((base * base) ^ (exp / 2)) [MOD HASH_MOD] :=
          Nat.ModEq.mul (Nat.mod_modEq _ _) ((Nat.mod_modEq _ _).pow _)
        have e2 : (result * base) * ((base * base) ^ (exp / 2))
            = result * base ^ exp := by
          conv_rhs => rw [hexp, hpar]
          ring
        calc (result * base % HASH_MOD) * ((base * base % HASH_MOD) ^ (exp / 2)) % HASH_MOD
            = (result * base) * ((base * base) ^ (exp / 2)) % HASH_MOD := e1
          _ = result * base ^ exp % HASH_MOD := by rw [e2]
      · rw [if_neg hpar]
        rw [hbb, ih _ hlt _ _ hr hbb_lt]
        have e1 : result * ((base * base % HASH_MOD) ^ (exp / 2))
            ≡ result * ((base * base) ^ (exp / 2)) [MOD HASH_MOD] :=
          Nat.ModEq.mul_left _ ((Nat.mod_modEq _ _).pow _)
        have e2 : result * ((base * base) ^ (exp / 2)) = result * base ^ exp := by
          have hpar0 : exp % 2 = 0 := by omega
          conv_rhs => rw [hexp, hpar0]
          ring
        calc result * ((base * base % HASH_MOD) ^ (exp / 2)) % HASH_MOD
            = result * ((base * base) ^ (exp / 2)) % HASH_MOD := e1
          _ = result * base ^ exp % HASH_MOD := by rw [e2]

theorem precompute_bp_eq (p : Nat) :
    precompute_bp p = HASH_BASE ^ (p - 1) % HASH_MOD := by
  unfold precompute_bp
  by_cases h0 : p = 0
  · simp [h0, HASH_MOD, HASH_BASE]
  · simp only [h0, if_false]
    rw [bpLoop_eq 1 HASH_BASE (p - 1) (by norm_num [HASH_MOD]) (by norm_num [HASH_MOD, HASH_BASE])]
    rw [Nat.one_mul]


theorem zmod_nat_inj {a b : Nat} (ha : a < HASH_MOD) (hb : b < HASH_MOD)
    (h : (a : ZMod HASH_MOD) = (b : ZMod HASH_MOD)) : a = b := by
  have := congrArg ZMod.val h
  rwa [ZMod.val_cast_of_lt ha, ZMod.val_cast_of_lt hb] at this

theorem fpSum_step (data : List Nat) (i m : Nat) :
    fpSum data (i + 1) (m + 1) =
      (fpSum data i (m + 1) - (data.getD i 0 : ZMod HASH_MOD)
          * (HASH_BASE : ZMod HASH_MOD) ^ m) * (HASH_BASE : ZMod HASH_MOD)
        + (data.getD (i + (m + 1)) 0 : ZMod HASH_MOD) := by
  have expand : ∀ off : Nat, fpSum data off (m + 1)
      = ∑ j ∈ Finset.range (m + 1),
          (data.getD (off + j) 0 : ZMod HASH_MOD) * (HASH_BASE : ZMod HASH_MOD) ^ (m - j) := by
    intro off
    unfold fpSum
    apply Finset.sum_congr rfl
    intro j hj
    have hjj : m + 1 - 1 - j = m - j := by omega
    rw [hjj]
  have hterm : ∀ j ∈ Finset.range m,
      (data.getD (i + 1 + j) 0 : ZMod HASH_MOD) * (HASH_BASE : ZMod HASH_MOD) ^ (m - j)
        = ((data.getD (i + (j + 1)) 0 : ZMod HASH_MOD)
            * (HASH_BASE : ZMod HASH_MOD) ^ (m - (j + 1))) * (HASH_BASE : ZMod HASH_MOD) := by
    intro j hj
    rw [Finset.mem_range] at hj
    rw [show i + 1 + j = i + (j + 1) by omega, mul_assoc, ← pow_succ,
      show m - (j + 1) + 1 = m - j by omega]
  conv_lhs => rw [expand (i + 1), Finset.sum_range_succ]
  conv_rhs => rw [expand i, Finset.sum_range_succ']
  rw [Finset.sum_congr rfl hterm, ← Finset.sum_mul,
    show i + 1 + m = i + (m + 1) by omega]
  simp only [Nat.add_zero, Nat.sub_zero, Nat.sub_self, pow_zero, mul_one]
  ring

theorem roll_step {data : List Nat} (h : ByteList data) {p : Nat} (hp : 1 ≤ p)
    (i : Nat) (rh : RollingHash) (hval : rh.value = fingerprint data i p)
    (hbp : rh.bp = precompute_bp p) :
    (rh.roll (data.getD i 0) (data.getD (i + p) 0)).value
      = fingerprint data (i + 1) p := by
  obtain ⟨m, rfl⟩ : ∃ m, p = m + 1 := ⟨p - 1, by omega⟩
  have hMnum : HASH_MOD = 2305843009213693951 := by norm_num [HASH_MOD]
  have h128 : (2 : Nat) ^ 128 = 340282366920938463463374607431768211456 := by norm_num
  have hBnum : HASH_BASE = 263 := rfl
  have hval_lt : rh.value < HASH_MOD := hval ▸ fingerprint_lt h i (m + 1)
  have hold : data.getD i 0 < 256 := h.getD_lt i
  have hnew : data.getD (i + (m + 1)) 0 < 256 := h.getD_lt (i + (m + 1))
  unfold RollingHash.roll
  simp only []
  have hbp_lt0 : rh.bp < HASH_MOD := by
    rw [hbp, precompute_bp_eq]
    exact Nat.mod_lt _ HASH_MOD_pos
  have hbp_num : rh.bp < 2305843009213693951 := hMnum ▸ hbp_lt0
  have hsub_arg : data.getD i 0 * rh.bp < 2 ^ 128 := by
    have h1 : data.getD i 0 * rh.bp ≤ 255 * 2305843009213693950 :=
      Nat.mul_le_mul (by omega) (by omega)
    rw [h128]
    omega
  have hsub_eq : mod_mersenne (data.getD i 0 * rh.bp)
      = data.getD i 0 * rh.bp % HASH_MOD := mod_mersenne_eq hsub_arg
  set sub := mod_mersenne (data.getD i 0 * rh.bp) with hsubdef
  have hsub_lt : sub < HASH_MOD := by rw [hsub_eq]; exact Nat.mod_lt _ HASH_MOD_pos
  set v := if sub ≤ rh.value then rh.value - sub else HASH_MOD - (sub - rh.value) with hvdef
  have hv_lt : v < HASH_MOD := by
    rw [hvdef]
    split_ifs with hc
    · omega
    · omega
  have hv_cast : (v : ZMod HASH_MOD)
      = (rh.value : ZMod HASH_MOD) - (sub : ZMod HASH_MOD) := by
    rw [hvdef]
    split_ifs with hc
    · push_cast [Nat.cast_sub hc]
      ring
    · have h1 : sub - rh.value ≤ HASH_MOD := by omega
      have h2 : rh.value ≤ sub := by omega
      push_cast [Nat.cast_sub h1, Nat.cast_sub h2]
      rw [ZMod.natCast_self]
      ring
  have hfin_arg : v * HASH_BASE + data.getD (i + (m + 1)) 0 < 2 ^ 128 := by
    have hv_num : v < 2305843009213693951 := hMnum ▸ hv_lt
    rw [h128, hBnum]
    omega
  have hlhs_lt : mod_mersenne (v * HASH_BASE + data.getD (i + (m + 1)) 0) < HASH_MOD :=
    mod_mersenne_lt hfin_arg
  apply zmod_nat_inj hlhs_lt (fingerprint_lt h (i + 1) (m + 1))
  rw [mod_mersenne_eq hfin_arg, ZMod.natCast_mod]
  push_cast
  rw [hv_cast, hval, fingerprint_cast h, fingerprint_cast h, fpSum_step]
  have hsub_cast : (sub : ZMod HASH_MOD)
      = (data.getD i 0 : ZMod HASH_MOD) * (HASH_BASE : ZMod HASH_MOD) ^ m := by
    rw [hsub_eq, ZMod.natCast_mod, hbp, precompute_bp_eq]
    push_cast [ZMod.natCast_mod]
    simp
  rw [hsub_cast]

theorem rollScan_bp (data : List Nat) (p i : Nat) :
    (rollScan data p i).bp = precompute_bp p := by
  induction i with
  | zero => rfl
  | succ i ih => simpa [rollScan, RollingHash.roll] using ih

theorem rollScan_value {data : List Nat} (h : ByteList data) {p : Nat}
    (hp : 1 ≤ p) (i : Nat) :
    (rollScan data p i).value = fingerprint data i p := by
  induction i with
  | zero => rfl
  | succ i ih =>
    show ((rollScan data p i).roll (data.getD i 0) (data.getD (i + p) 0)).value = _
    exact roll_step h hp i _ ih (rollScan_bp data p i)

theorem fingerprint_congr {d1 d2 : List Nat} {o1 o2 : Nat} (p : Nat)
    (h : ∀ j < p, d1.getD (o1 + j) 0 = d2.getD (o2 + j) 0) :
    fingerprint d1 o1 p = fingerprint d2 o2 p := by
  induction p with
  | zero => rfl
  | succ p ih =>
    rw [fingerprint_succ, fingerprint_succ,
      ih (fun j hj => h j (by omega)), h p (by omega)]

/-- Claim C5: for every byte string `data`, window length `p ≥ 1` and position
`i ∈ [0, |data| − p]`, starting a `RollingHash` at offset 0 and rolling
`i` times (the `j`-th roll removing `data[j-1]` and adding `data[j+p-1]`)
yields exactly `fingerprint data i p`; moreover `fingerprint data off p`
depends only on the window bytes `data[off..off+p)`. -/
theorem c5_rolling_hash_identity (data : List Nat) (p i : Nat)
    (hbytes : ByteList data) (hp : 1 ≤ p) (_hi : i + p ≤ data.length) :
    (rollScan data p i).value = fingerprint data i p ∧
    (∀ (data2 : List Nat) (off off2 : Nat),
      (∀ j < p, data.getD (off + j) 0 = data2.getD (off2 + j) 0) →
      fingerprint data off p = fingerprint data2 off2 p) :=
  ⟨rollScan_value hbytes hp i, fun _ _ _ h => fingerprint_congr p h⟩

/-- Witness for C5 at a concrete input. -/
theorem c5_rolling_hash_identity_witness :
    (rollScan [7, 200, 33, 91, 4] 2 3).value = fingerprint [7, 200, 33, 91, 4] 3 2 :=
  (c5_rolling_hash_identity [7, 200, 33, 91, 4] 2 3 (by decide) (by decide) (by decide)).1

/-! ### Container codec lemmas -/

theorem getD_append_right (pre suf : List Nat) (i : Nat) :
    (pre ++ suf).getD (pre.length + i) 0 = suf.getD i 0 := by
  simp [List.getD, List.getElem?_append_right (show pre.length ≤ pre.length + i by omega)]

theorem readU32_spec (pre rest : List Nat) (n : Nat) :
    readU32 (pre ++ (u32be n ++ rest)) pre.length = n % 2 ^ 32 := by
  have h0 := getD_append_right pre (u32be n ++ rest) 0
  have h1 := getD_append_right pre (u32be n ++ rest) 1
  have h2 := getD_append_right pre (u32be n ++ rest) 2
  have h3 := getD_append_right pre (u32be n ++ rest) 3
  rw [Nat.add_zero] at h0
  unfold readU32
  rw [h0, h1, h2, h3]
  have hm : n % 2 ^ 32 < 2 ^ 32 := Nat.mod_lt _ (by norm_num)
  simp only [u32be, List.cons_append, List.nil_append]
  simp
  omega

theorem encCmd_length_copy (src dst length : Nat) :
    (encCmd (.Copy src dst length)).length = 13 := rfl

theorem encCmd_pos (c : PlacedCommand) : 1 ≤ (encCmd c).length := by
  cases c <;> simp [encCmd]

/-- `readU32` at a decomposed position. -/
theorem readU32_at (blob : List Nat) (pos : Nat) (pre rest : List Nat) (n : Nat)
    (hb : blob = pre ++ (u32be n ++ rest)) (hp : pos = pre.length) (hn : n < 2 ^ 32) :
    readU32 blob pos = n := by
  subst hb hp
  rw [readU32_spec, Nat.mod_eq_of_lt hn]

/-- Stepping `decodeLoop` over one correctly encoded, `u32`-bounded command. -/
theorem decodeLoop_step (c : PlacedCommand) (hc : CmdBounded c)
    (pre rest : List Nat) (acc : List PlacedCommand) :
    decodeLoop (pre ++ (encCmd c ++ rest)) pre.length acc
      = decodeLoop (pre ++ (encCmd c ++ rest)) (pre.length + (encCmd c).length)
          (acc ++ [c]) := by
  cases c with
  | Copy src dst length =>
    obtain ⟨hsrc, hdst, hlen⟩ := hc
    set blob := pre ++ (encCmd (.Copy src dst length) ++ rest) with hblob
    have hlendata : blob.length = pre.length + 13 + rest.length := by
      simp [hblob, encCmd, u32be]
      omega
    rw [decodeLoop]
    rw [dif_pos (show pre.length < blob.length by omega)]
    have htag : blob.getD pre.length 0 = DELTA_CMD_COPY := by
      have := getD_append_right pre (encCmd (.Copy src dst length) ++ rest) 0
      rw [Nat.add_zero] at this
      rw [hblob, this]
      simp [encCmd, List.getD]
    rw [htag, if_neg (show DELTA_CMD_COPY ≠ DELTA_CMD_END by decide), if_pos rfl]
    rw [if_neg (show ¬ (blob.length < pre.length + 1 + DELTA_COPY_PAYLOAD) by
      unfold DELTA_COPY_PAYLOAD; omega)]
    have hr1 : readU32 blob (pre.length + 1) = src := by
      apply readU32_at blob _ (pre ++ [DELTA_CMD_COPY])
        (u32be dst ++ (u32be length ++ rest)) src _ _ hsrc
      · simp [hblob, encCmd]
      · simp
    have hr2 : readU32 blob (pre.length + 1 + 4) = dst := by
      apply readU32_at blob _ (pre ++ (DELTA_CMD_COPY :: u32be src))
        (u32be length ++ rest) dst _ _ hdst
      · simp [hblob, encCmd]
      · simp [u32be]
    have hr3 : readU32 blob (pre.length + 1 + 8) = length := by
      apply readU32_at blob _ (pre ++ (DELTA_CMD_COPY :: (u32be src ++ u32be dst)))
        rest length _ _ hlen
      · simp [hblob, encCmd]
      · simp [u32be]
    rw [hr1, hr2, hr3]
    have hpos13 : pre.length + 1 + 12 = pre.length + (encCmd (.Copy src dst length)).length := by
      simp [encCmd, u32be]
    rw [hpos13]
  | Add dst data =>
    obtain ⟨hdst, hlen⟩ := hc
    set blob := pre ++ (encCmd (.Add dst data) ++ rest) with hblob
    have hlendata : blob.length = pre.length + 9 + data.length + rest.length := by
      simp [hblob, encCmd, u32be]
      omega
    rw [decodeLoop]
    rw [dif_pos (show pre.length < blob.length by omega)]
    have htag : blob.getD pre.length 0 = DELTA_CMD_ADD := by
      have := getD_append_right pre (encCmd (.Add dst data) ++ rest) 0
      rw [Nat.add_zero] at this
      rw [hblob, this]
      simp [encCmd, List.getD]
    rw [htag, if_neg (show DELTA_CMD_ADD ≠ DELTA_CMD_END by decide),
      if_neg (show DELTA_CMD_ADD ≠ DELTA_CMD_COPY by decide), if_pos rfl]
    rw [if_neg (show ¬ (blob.length < pre.length + 1 + DELTA_ADD_HEADER) by
      unfold DELTA_ADD_HEADER; omega)]
    have hr1 : readU32 blob (pre.length + 1) = dst := by
      apply readU32_at blob _ (pre ++ [DELTA_CMD_ADD])
        (u32be data.length ++ (data ++ rest)) dst _ _ hdst
      · simp [hblob, encCmd]
      · simp
    have hr2 : readU32 blob (pre.length + 1 + 4) = data.length := by
      apply readU32_at blob _ (pre ++ (DELTA_CMD_ADD :: u32be dst))
        (data ++ rest) data.length _ _ hlen
      · simp [hblob, encCmd]
      · simp [u32be]
    rw [hr1, hr2]
    rw [if_neg (show ¬ (blob.length < pre.length + 1 + 8 + data.length) by omega)]
    have hslice : (blob.drop (pre.length + 1 + 8)).take data.length = data := by
      have hdecomp : blob = (pre ++ (DELTA_CMD_ADD :: (u32be dst ++ u32be data.length)))
          ++ (data ++ rest) := by
        simp [hblob, encCmd]
      have hplen : (pre ++ (DELTA_CMD_ADD :: (u32be dst ++ u32be data.length))).length
          = pre.length + 1 + 8 := by
        simp [u32be]
      rw [hdecomp, ← hplen, List.drop_left, List.take_left]
    rw [hslice]
    have hpos9 : pre.length + 1 + 8 + data.length
        = pre.length + (encCmd (.Add dst data)).length := by
      simp [encCmd, u32be]
      omega
    rw [hpos9]

/-- `decodeLoop` walks an encoded, bounded command list and accumulates it. -/
theorem decodeLoop_encoded_gen (cs : List PlacedCommand)
    (h : ∀ c ∈ cs, CmdBounded c) :
    ∀ (blob pre rest : List Nat) (acc : List PlacedCommand) (pos pos' : Nat),
      blob = pre ++ ((cs.map encCmd).flatten ++ rest) →
      pos = pre.length →
      pos' = pos + ((cs.map encCmd).flatten).length →
      decodeLoop blob pos acc = decodeLoop blob pos' (acc ++ cs) := by
  induction cs with
  | nil =>
    intro blob pre rest acc pos pos' hb hp hp'
    simp only [List.map_nil, List.flatten_nil, List.length_nil, Nat.add_zero] at hp'
    subst hp'
    simp
  | cons c cs ih =>
    intro blob pre rest acc pos pos' hb hp hp'
    have hstep := decodeLoop_step c (h c (List.mem_cons_self c cs)) pre
      ((cs.map encCmd).flatten ++ rest) acc
    have hb' : blob = pre ++ (encCmd c ++ ((cs.map encCmd).flatten ++ rest)) := by
      rw [hb]; simp
    rw [hb', hp, hstep]
    have := ih (fun d hd => h d (List.mem_cons_of_mem c hd))
      (pre ++ (encCmd c ++ ((cs.map encCmd).flatten ++ rest)))
      (pre ++ encCmd c) rest (acc ++ [c])
      (pre.length + (encCmd c).length)
      pos' (by simp) (by simp) (by rw [hp', hp]; simp; omega)
    rw [this]
    simp

theorem decodeLoop_end (pre : List Nat) (acc : List PlacedCommand) :
    decodeLoop (pre ++ [DELTA_CMD_END]) pre.length acc = .ok acc := by
  rw [decodeLoop]
  rw [dif_pos (by simp)]
  have htag : (pre ++ [DELTA_CMD_END]).getD pre.length 0 = DELTA_CMD_END := by
    have := getD_append_right pre [DELTA_CMD_END] 0
    rw [Nat.add_zero] at this
    rw [this]
    rfl
  rw [htag, if_pos rfl]

theorem decodeLoop_unknown_tag (pre rest : List Nat) (t : Nat)
    (ht : ¬ (t = 0 ∨ t = 1 ∨ t = 2)) (acc : List PlacedCommand) :
    decodeLoop (pre ++ (t :: rest)) pre.length acc
      = .error (.InvalidFormat ("unknown command type: " ++ toString t)) := by
  rw [decodeLoop]
  rw [dif_pos (by simp)]
  have htag : (pre ++ (t :: rest)).getD pre.length 0 = t := by
    have := getD_append_right pre (t :: rest) 0
    rw [Nat.add_zero] at this
    rw [this]
    simp [List.getD]
  rw [htag, if_neg (by unfold DELTA_CMD_END; omega),
    if_neg (by unfold DELTA_CMD_COPY; omega), if_neg (by unfold DELTA_CMD_ADD; omega)]

/-- Decoding a well-formed header (arbitrary flags byte) followed by encoded
commands and an END tag. -/
theorem decode_delta_blob (fb n : Nat) (cs : List PlacedCommand) (tail : List Nat)
    (hn : n < 2 ^ 32) (h : ∀ c ∈ cs, CmdBounded c)
    (htail : decodeLoop (DELTA_MAGIC ++ ([fb] ++ (u32be n ++ ((cs.map encCmd).flatten ++ tail))))
        (9 + ((cs.map encCmd).flatten).length) cs
      = .ok cs) :
    decode_delta (DELTA_MAGIC ++ ([fb] ++ (u32be n ++ ((cs.map encCmd).flatten ++ tail))))
      = .ok (cs, decide (fb &&& DELTA_FLAG_INPLACE ≠ 0), n) := by
  set blob := DELTA_MAGIC ++ ([fb] ++ (u32be n ++ ((cs.map encCmd).flatten ++ tail))) with hblob
  have hlen : blob.length = 9 + ((cs.map encCmd).flatten).length + tail.length := by
    simp [hblob, DELTA_MAGIC, u32be]
    omega
  unfold decode_delta
  rw [if_neg]
  · have hfb : blob.getD 4 0 = fb := by
      have := getD_append_right DELTA_MAGIC ([fb] ++ (u32be n ++ ((cs.map encCmd).flatten ++ tail))) 0
      rw [Nat.add_zero] at this
      have h4 : DELTA_MAGIC.length = 4 := rfl
      rw [h4] at this
      rw [hblob, this]
      simp [List.getD]
    have hvs : readU32 blob 5 = n := by
      apply readU32_at blob 5 (DELTA_MAGIC ++ [fb]) ((cs.map encCmd).flatten ++ tail) n _ _ hn
      · simp [hblob]
      · rfl
    have hloop : decodeLoop blob DELTA_HEADER_SIZE [] = .ok cs := by
      have hstart := decodeLoop_encoded_gen cs h blob (DELTA_MAGIC ++ ([fb] ++ u32be n))
        tail [] DELTA_HEADER_SIZE (9 + ((cs.map encCmd).flatten).length)
        (by simp [hblob]) (by simp [DELTA_MAGIC, u32be]; rfl)
        (by unfold DELTA_HEADER_SIZE; omega)
      rw [hstart]
      simpa using htail
    simp only [hloop, hfb, hvs]
    rfl
  · push_neg
    constructor
    · unfold DELTA_HEADER_SIZE
      omega
    · rw [hblob]
      have h4 : DELTA_MAGIC.length = 4 := rfl
      rw [← h4]
      simp

/-- Any flags byte is accepted: decoding reads only bit 0 of it. -/
theorem decode_delta_any_flags (fb n : Nat) (cs : List PlacedCommand)
    (hn : n < 2 ^ 32) (h : ∀ c ∈ cs, CmdBounded c) :
    decode_delta (DELTA_MAGIC ++ ([fb] ++ (u32be n ++ ((cs.map encCmd).flatten ++ [DELTA_CMD_END]))))
      = .ok (cs, decide (fb &&& DELTA_FLAG_INPLACE ≠ 0), n) := by
  apply decode_delta_blob fb n cs [DELTA_CMD_END] hn h
  have hsh : DELTA_MAGIC ++ ([fb] ++ (u32be n ++ ((cs.map encCmd).flatten ++ [DELTA_CMD_END])))
      = (DELTA_MAGIC ++ ([fb] ++ (u32be n ++ (cs.map encCmd).flatten))) ++ [DELTA_CMD_END] := by
    simp
  have hpl : (DELTA_MAGIC ++ ([fb] ++ (u32be n ++ (cs.map encCmd).flatten))).length
      = 9 + ((cs.map encCmd).flatten).length := by
    simp [DELTA_MAGIC, u32be]
    omega
  rw [hsh, ← hpl]
  exact decodeLoop_end _ cs

/-- A command stream cut strictly inside one command's encoding decodes to
`UnexpectedEof`. -/
theorem decodeLoop_truncated (c : PlacedCommand) (hc : CmdBounded c)
    (pre : List Nat) (k : Nat) (hk1 : 1 ≤ k) (hk2 : k < (encCmd c).length)
    (acc : List PlacedCommand) :
    decodeLoop (pre ++ (encCmd c).take k) pre.length acc = .error .UnexpectedEof := by
  cases c with
  | Copy src dst length =>
    have hlen13 : (encCmd (.Copy src dst length)).length = 13 := rfl
    rw [hlen13] at hk2
    set blob := pre ++ (encCmd (.Copy src dst length)).take k with hblob
    have hblen : blob.length = pre.length + k := by
      simp [hblob]
      omega
    rw [decodeLoop, dif_pos (by omega)]
    have htag : blob.getD pre.length 0 = DELTA_CMD_COPY := by
      have := getD_append_right pre ((encCmd (.Copy src dst length)).take k) 0
      rw [Nat.add_zero] at this
      rw [hblob, this]
      cases k with
      | zero => omega
      | succ k => simp [encCmd, List.getD]
    rw [htag, if_neg (by decide), if_pos rfl,
      if_pos (by unfold DELTA_COPY_PAYLOAD; omega)]
  | Add dst data =>
    have hlenc : (encCmd (.Add dst data)).length = 9 + data.length := by
      simp [encCmd, u32be]
      omega
    rw [hlenc] at hk2
    set blob := pre ++ (encCmd (.Add dst data)).take k with hblob
    have hblen : blob.length = pre.length + k := by
      simp [hblob]
      omega
    rw [decodeLoop, dif_pos (by omega)]
    have htag : blob.getD pre.length 0 = DELTA_CMD_ADD := by
      have := getD_append_right pre ((encCmd (.Add dst data)).take k) 0
      rw [Nat.add_zero] at this
      rw [hblob, this]
      cases k with
      | zero => omega
      | succ k => simp [encCmd, List.getD]
    rw [htag, if_neg (by decide), if_neg (by decide), if_pos rfl]
    by_cases hk9 : k < 9
    · rw [if_pos (by unfold DELTA_ADD_HEADER; omega)]
    · rw [if_neg (by unfold DELTA_ADD_HEADER; omega)]
      have hread : readU32 blob (pre.length + 1 + 4) = data.length := by
        apply readU32_at blob _ (pre ++ (DELTA_CMD_ADD :: u32be dst))
          (data.take (k - 9)) data.length _ _ hc.2
        · rw [hblob]
          obtain ⟨k', rfl⟩ : ∃ k', k = k' + 1 := ⟨k - 1, by omega⟩
          have hk8 : 8 ≤ k' := by omega
          have hdec : (encCmd (.Add dst data)).take (k' + 1)
              = DELTA_CMD_ADD :: (u32be dst ++ (u32be data.length ++ data.take (k' + 1 - 9))) := by
            show (DELTA_CMD_ADD :: (u32be dst ++ u32be data.length ++ data)).take (k' + 1) = _
            rw [List.take_succ_cons, List.take_append_eq_append_take,
              List.take_of_length_le (by simp [u32be]; omega)]
            have harg : k' - (u32be dst ++ u32be data.length).length = k' + 1 - 9 := by
              simp [u32be]
            rw [harg]
            simp
          rw [hdec]
          simp
        · simp [u32be]
      rw [hread, if_pos (by omega)]

/-- Decoding any blob with a valid 9-byte header reduces to the command loop. -/
theorem decode_delta_headered (fb n : Nat) (body : List Nat) :
    decode_delta (DELTA_MAGIC ++ ([fb] ++ (u32be n ++ body)))
      = (decodeLoop (DELTA_MAGIC ++ ([fb] ++ (u32be n ++ body))) DELTA_HEADER_SIZE []).map
          (fun cs => (cs, decide (fb &&& DELTA_FLAG_INPLACE ≠ 0), n % 2 ^ 32)) := by
  set blob := DELTA_MAGIC ++ ([fb] ++ (u32be n ++ body)) with hblob
  have hlen : blob.length = 9 + body.length := by
    simp [hblob, DELTA_MAGIC, u32be]
    omega
  unfold decode_delta
  rw [if_neg]
  · have hfb : blob.getD 4 0 = fb := by
      have := getD_append_right DELTA_MAGIC ([fb] ++ (u32be n ++ body)) 0
      rw [Nat.add_zero] at this
      have h4 : DELTA_MAGIC.length = 4 := rfl
      rw [h4] at this
      rw [hblob, this]
      simp [List.getD]
    have hvs : readU32 blob 5 = n % 2 ^ 32 := by
      have hsh : blob = (DELTA_MAGIC ++ [fb]) ++ (u32be n ++ body) := by
        simp [hblob]
      rw [hsh, show (5 : Nat) = (DELTA_MAGIC ++ [fb]).length from rfl, readU32_spec]
    simp only [hfb, hvs]
  · push_neg
    constructor
    · unfold DELTA_HEADER_SIZE
      omega
    · rw [hblob]
      have h4 : DELTA_MAGIC.length = 4 := rfl
      rw [← h4]
      simp

/-- The command loop of a headered blob, advanced past the encoded prefix. -/
theorem decodeLoop_past_prefix (fb n : Nat) (cs : List PlacedCommand)
    (h : ∀ c ∈ cs, CmdBounded c) (tail : List Nat) :
    decodeLoop (DELTA_MAGIC ++ ([fb] ++ (u32be n ++ ((cs.map encCmd).flatten ++ tail))))
        DELTA_HEADER_SIZE []
      = decodeLoop (DELTA_MAGIC ++ ([fb] ++ (u32be n ++ ((cs.map encCmd).flatten ++ tail))))
          (9 + ((cs.map encCmd).flatten).length) cs := by
  have := decodeLoop_encoded_gen cs h
    (DELTA_MAGIC ++ ([fb] ++ (u32be n ++ ((cs.map encCmd).flatten ++ tail))))
    (DELTA_MAGIC ++ ([fb] ++ u32be n)) tail [] DELTA_HEADER_SIZE
    (9 + ((cs.map encCmd).flatten).length)
    (by simp) (by simp [DELTA_MAGIC, u32be]; rfl) (by unfold DELTA_HEADER_SIZE; omega)
  simpa using this

/-- Claim C6 (amended): `decode_delta` returns `InvalidFormat` exactly for a
bad header (shorter than 9 bytes or wrong magic) or an unknown command tag;
unrecognised flag bits are ignored, not rejected; `UnexpectedEof` is returned
when a command's encoding is truncated mid-field; on any error no commands
are returned (the error is the entire result). -/
theorem c6_decode_error_taxonomy :
    (∀ data : List Nat, data.length < DELTA_HEADER_SIZE ∨ data.take 4 ≠ DELTA_MAGIC →
      decode_delta data = .error (.InvalidFormat "not a delta file")) ∧
    (∀ fb n : Nat, ∀ cs : List PlacedCommand, n < 2 ^ 32 → (∀ c ∈ cs, CmdBounded c) →
      decode_delta (DELTA_MAGIC ++ ([fb] ++ (u32be n ++ ((cs.map encCmd).flatten ++ [DELTA_CMD_END]))))
        = .ok (cs, decide (fb &&& DELTA_FLAG_INPLACE ≠ 0), n)) ∧
    (∀ fb n t : Nat, ∀ cs : List PlacedCommand, ∀ rest : List Nat,
      (∀ c ∈ cs, CmdBounded c) → ¬ (t = 0 ∨ t = 1 ∨ t = 2) →
      decode_delta (DELTA_MAGIC ++ ([fb] ++ (u32be n ++ ((cs.map encCmd).flatten ++ (t :: rest)))))
        = .error (.InvalidFormat ("unknown command type: " ++ toString t))) ∧
    (∀ fb n k : Nat, ∀ cs : List PlacedCommand, ∀ c : PlacedCommand,
      (∀ c' ∈ cs, CmdBounded c') → CmdBounded c → 1 ≤ k → k < (encCmd c).length →
      decode_delta (DELTA_MAGIC ++ ([fb] ++ (u32be n ++ ((cs.map encCmd).flatten ++ (encCmd c).take k))))
        = .error .UnexpectedEof) := by
  refine ⟨?_, ?_, ?_, ?_⟩
  · intro data hbad
    unfold decode_delta
    rw [if_pos hbad]
  · intro fb n cs hn h
    exact decode_delta_any_flags fb n cs hn h
  · intro fb n t cs rest h ht
    rw [decode_delta_headered, decodeLoop_past_prefix fb n cs h]
    have hpre : (9 + ((cs.map encCmd).flatten).length)
        = (DELTA_MAGIC ++ ([fb] ++ (u32be n ++ (cs.map encCmd).flatten))).length := by
      simp [DELTA_MAGIC, u32be]
      omega
    have hassoc : DELTA_MAGIC ++ ([fb] ++ (u32be n ++ ((cs.map encCmd).flatten ++ (t :: rest))))
        = (DELTA_MAGIC ++ ([fb] ++ (u32be n ++ (cs.map encCmd).flatten))) ++ (t :: rest) := by
      simp
    rw [hpre, hassoc, decodeLoop_unknown_tag _ rest t ht cs]
    rfl
  · intro fb n k cs c h hc hk1 hk2
    rw [decode_delta_headered, decodeLoop_past_prefix fb n cs h]
    have hpre : (9 + ((cs.map encCmd).flatten).length)
        = (DELTA_MAGIC ++ ([fb] ++ (u32be n ++ (cs.map encCmd).flatten))).length := by
      simp [DELTA_MAGIC, u32be]
      omega
    have hassoc : DELTA_MAGIC ++ ([fb] ++ (u32be n ++ ((cs.map encCmd).flatten ++ (encCmd c).take k)))
        = (DELTA_MAGIC ++ ([fb] ++ (u32be n ++ (cs.map encCmd).flatten))) ++ (encCmd c).take k := by
      simp
    rw [hpre, hassoc, decodeLoop_truncated c hc _ k hk1 hk2 cs]
    rfl

/-- Counterexample for C6 as stated: the flags byte `2` carries only an
unrecognised bit, yet decoding succeeds instead of returning
`InvalidFormat`. -/
theorem c6_counterexample_flags_accepted :
    decode_delta [68, 76, 84, 1, 2, 0, 0, 0, 0, 0]
        = .ok ([], false, 0) ∧ (2 : Nat) &&& DELTA_FLAG_INPLACE = 0 := by
  constructor
  · have h := decode_delta_any_flags 2 0 [] (by norm_num) (by simp)
    have hblob : DELTA_MAGIC ++ ([2] ++ (u32be 0 ++ ((([] : List PlacedCommand).map encCmd).flatten ++ [DELTA_CMD_END])))
        = [68, 76, 84, 1, 2, 0, 0, 0, 0, 0] := by decide
    rw [hblob] at h
    simpa using h
  · decide

/-- Witness for C6 (amended) at concrete inputs. -/
theorem c6_decode_error_taxonomy_witness :
    decode_delta [68, 76, 84, 9] = .error (.InvalidFormat "not a delta file") ∧
    decode_delta (DELTA_MAGIC ++ ([6] ++ (u32be 5 ++ (([PlacedCommand.Copy 1 0 5].map encCmd).flatten ++ [DELTA_CMD_END]))))
      = .ok ([PlacedCommand.Copy 1 0 5], decide ((6 : Nat) &&& DELTA_FLAG_INPLACE ≠ 0), 5) ∧
    decode_delta (DELTA_MAGIC ++ ([0] ++ (u32be 5 ++ (([] : List PlacedCommand).map encCmd).flatten ++ (7 :: [])))) 
      = .error (.InvalidFormat ("unknown command type: " ++ toString (7 : Nat))) ∧
    decode_delta (DELTA_MAGIC ++ ([0] ++ (u32be 5 ++ ((([] : List PlacedCommand).map encCmd).flatten ++ (encCmd (PlacedCommand.Copy 1 0 5)).take 3))))
      = .error .UnexpectedEof :=
  ⟨c6_decode_error_taxonomy.1 [68, 76, 84, 9] (by decide),
   c6_decode_error_taxonomy.2.1 6 5 [PlacedCommand.Copy 1 0 5] (by norm_num) (by decide),
   by
     have := c6_decode_error_taxonomy.2.2.1 0 5 7 [] [] (by simp) (by decide)
     simpa using this,
   c6_decode_error_taxonomy.2.2.2 0 5 3 [] (PlacedCommand.Copy 1 0 5)
     (by simp) (by decide) (by decide) (by decide)⟩

/-- Claim C3 (evaluation at the failing input): the encoder under `src/`
emits the hash-less v1 container — for an empty delta just 10 bytes, with
magic `DLT\x01` — and the decoder rejects the v2 container (magic
`DLT\x02`, 16-byte src/dst hashes) that the spec and the repository's own
integration tests prescribe.  No content hashes round-trip through this
codec. -/
theorem c3_container_v1_no_hashes :
    (encode_delta [] false 0).length = 10 ∧
    (encode_delta [] false 0).take 4 = DELTA_MAGIC ∧
    DELTA_MAGIC ≠ [68, 76, 84, 2] ∧
    decode_delta (encode_delta_v2_spec [] false 0 (List.replicate 16 0) (List.replicate 16 0))
      = .error (.InvalidFormat "not a delta file") :=
  ⟨by decide, by decide, by decide, by decide⟩

/-! ### Primality lemmas -/

theorem powerModLoop_eq (fuel : Nat) :
    ∀ (result b exp m : Nat), 2 ≤ m → result < m → b < m → exp ≤ fuel →
      powerModLoop fuel result b exp m = result * b ^ exp % m := by
  induction fuel with
  | zero =>
    intro result b exp m hm hr hb hfuel
    have : exp = 0 := by omega
    subst this
    simp [powerModLoop, Nat.mod_eq_of_lt hr]
  | succ fuel ih =>
    intro result b exp m hm hr hb hfuel
    rw [powerModLoop]
    by_cases h0 : exp = 0
    · subst h0
      simp [Nat.mod_eq_of_lt hr]
    · rw [if_neg h0]
      have hexp2 : exp / 2 ≤ fuel := by omega
      have hexp : exp = 2 * (exp / 2) + exp % 2 := by omega
      have hbb_lt : b * b % m < m := Nat.mod_lt _ (by omega)
      by_cases hpar : exp % 2 = 1
      · rw [if_pos hpar, ih _ _ _ _ hm (Nat.mod_lt _ (by omega)) hbb_lt hexp2]
        have e1 : (result * b % m) * ((b * b % m) ^ (exp / 2))
            ≡ (result * b) * ((b * b) ^ (exp / 2)) [MOD m] :=
          Nat.ModEq.mul (Nat.mod_modEq _ _) ((Nat.mod_modEq _ _).pow _)
        have e2 : (result * b) * ((b * b) ^ (exp / 2)) = result * b ^ exp := by
          conv_rhs => rw [hexp, hpar]
          ring
        calc (result * b % m) * ((b * b % m) ^ (exp / 2)) % m
            = (result * b) * ((b * b) ^ (exp / 2)) % m := e1
          _ = result * b ^ exp % m := by rw [e2]
      · rw [if_neg hpar, ih _ _ _ _ hm hr hbb_lt hexp2]
        have e1 : result * ((b * b % m) ^ (exp / 2))
            ≡ result * ((b * b) ^ (exp / 2)) [MOD m] :=
          Nat.ModEq.mul_left _ ((Nat.mod_modEq _ _).pow _)
        have e2 : result * ((b * b) ^ (exp / 2)) = result * b ^ exp := by
          have hpar0 : exp % 2 = 0 := by omega
          conv_rhs => rw [hexp, hpar0]
          ring
        calc result * ((b * b % m) ^ (exp / 2)) % m
            = result * ((b * b) ^ (exp / 2)) % m := e1
          _ = result * b ^ exp % m := by rw [e2]

theorem power_mod_eq (base exp m : Nat) (hm : 2 ≤ m) :
    power_mod base exp m = base ^ exp % m := by
  unfold power_mod
  rw [if_neg (by omega)]
  rw [powerModLoop_eq exp 1 (base % m) exp m hm (by omega) (Nat.mod_lt _ (by omega)) le_rfl]
  rw [Nat.one_mul, ← Nat.pow_mod]

theorem power_mod_lt (base exp m : Nat) (hm : 2 ≤ m) :
    power_mod base exp m < m := by
  rw [power_mod_eq _ _ _ hm]
  exact Nat.mod_lt _ (by omega)

theorem getDRLoop_spec (fuel : Nat) :
    ∀ n, 1 ≤ n → n ≤ fuel →
      n = (getDRLoop fuel n).1 * 2 ^ (getDRLoop fuel n).2 ∧
      (getDRLoop fuel n).1 % 2 = 1 := by
  induction fuel with
  | zero => intro n h1 h2; omega
  | succ fuel ih =>
    intro n h1 h2
    rw [getDRLoop]
    by_cases hc : n % 2 = 0 ∧ n ≠ 0
    · rw [if_pos hc]
      have h3 : 1 ≤ n / 2 := by omega
      have h4 : n / 2 ≤ fuel := by omega
      obtain ⟨ha, hb⟩ := ih (n / 2) h3 h4
      constructor
      · simp only []
        rw [pow_succ]
        conv_lhs => rw [show n = n / 2 * 2 by omega, ha]
        ring
      · simpa using hb
    · rw [if_neg hc]
      exact ⟨by simp, by simp; omega⟩

theorem get_d_r_spec (n : Nat) (hn : 1 ≤ n) :
    n = (get_d_r n).1 * 2 ^ (get_d_r n).2 ∧ (get_d_r n).1 % 2 = 1 :=
  getDRLoop_spec n n hn le_rfl

theorem natCast_inj_lt {p a b : Nat} (ha : a < p) (hb : b < p)
    (h : (a : ZMod p) = (b : ZMod p)) : a = b := by
  haveI : NeZero p := ⟨by omega⟩
  have := congrArg ZMod.val h
  rwa [ZMod.val_cast_of_lt ha, ZMod.val_cast_of_lt hb] at this

/-- On a prime modulus the squaring loop never reports a witness: the only
square roots of 1 are ±1, and the chain ends at `a^(n-1) mod n = 1`. -/
theorem witnessLoop_prime {p : Nat} (hp : p.Prime) (hp3 : 3 ≤ p) :
    ∀ (r x : Nat), x < p → x ^ 2 ^ r % p = 1 → witnessLoop p r x = false := by
  haveI : Fact p.Prime := ⟨hp⟩
  intro r
  induction r with
  | zero =>
    intro x hx hpow
    simp only [pow_zero, pow_one] at hpow
    rw [Nat.mod_eq_of_lt hx] at hpow
    simp [witnessLoop, hpow]
  | succ r ih =>
    intro x hx hpow
    rw [witnessLoop]
    have hy : power_mod x 2 p = x ^ 2 % p := power_mod_eq _ _ _ (by omega)
    have hylt : x ^ 2 % p < p := Nat.mod_lt _ (by omega)
    have hcond : ¬ (power_mod x 2 p = 1 ∧ x ≠ 1 ∧ x ≠ p - 1) := by
      rintro ⟨h1, h2, h3⟩
      rw [hy] at h1
      -- x² ≡ 1 (mod p) with p prime forces x ≡ ±1
      have hcast : ((x : ZMod p)) * ((x : ZMod p)) = 1 := by
        have : ((x ^ 2 % p : Nat) : ZMod p) = ((1 : Nat) : ZMod p) := by rw [h1]
        rw [ZMod.natCast_mod] at this
        push_cast at this
        rw [sq] at this
        simpa using this
      rcases mul_self_eq_one_iff.mp hcast with hone | hneg
      · exact h2 (natCast_inj_lt hx (by omega) (by simpa using hone))
      · apply h3
        apply natCast_inj_lt hx (by omega)
        rw [hneg]
        have : ((p - 1 : Nat) : ZMod p) = (p : ZMod p) - 1 := by
          push_cast [Nat.cast_sub (show 1 ≤ p by omega)]
          ring
        rw [this, ZMod.natCast_self]
        ring
    rw [if_neg hcond, hy]
    apply ih _ hylt
    rw [← Nat.pow_mod, ← pow_mul]
    rw [← hpow]
    congr 1
    ring

/-- Miller–Rabin never rejects a prime, whatever the random draws. -/
theorem witness_prime_false {p : Nat} (hp : p.Prime) (hp5 : 5 ≤ p) (a : Nat)
    (ha2 : 2 ≤ a) (hap : a < p) : witness a p = false := by
  haveI : Fact p.Prime := ⟨hp⟩
  unfold witness
  obtain ⟨hfac, hodd⟩ := get_d_r_spec (p - 1) (by omega)
  apply witnessLoop_prime hp (by omega)
  · exact power_mod_lt _ _ _ (by omega)
  · rw [power_mod_eq _ _ _ (by omega), ← Nat.pow_mod, ← pow_mul, ← hfac]
    -- Fermat: a^(p-1) ≡ 1 (mod p) since p ∤ a
    have hcast : ((a ^ (p - 1) : Nat) : ZMod p) = ((1 : Nat) : ZMod p) := by
      push_cast
      apply ZMod.pow_card_sub_one_eq_one
      intro h0
      have := (ZMod.natCast_zmod_eq_zero_iff_dvd a p).mp h0
      have := Nat.le_of_dvd (by omega) this
      omega
    have h1 : a ^ (p - 1) % p = 1 % p := by
      have := congrArg ZMod.val hcast
      rwa [← ZMod.natCast_mod, ← ZMod.natCast_mod 1,
        ZMod.val_cast_of_lt (Nat.mod_lt _ (by omega)),
        ZMod.val_cast_of_lt (Nat.mod_lt _ (by omega))] at this
    rw [h1, Nat.mod_eq_of_lt (by omega)]

theorem mrLoop_prime {p : Nat} (hp : p.Prime) (hp5 : 5 ≤ p) (s : Nat → Nat) :
    ∀ (k i : Nat), mrLoop p s k i = true := by
  intro k
  induction k with
  | zero => intro i; rfl
  | succ k ih =>
    intro i
    rw [mrLoop]
    have hmod : s i % (p - 3) < p - 3 := Nat.mod_lt _ (by omega)
    rw [witness_prime_false hp hp5 (2 + s i % (p - 3)) (by omega) (by omega)]
    simp only [Bool.false_eq_true, if_false]
    exact ih (i + 1)

/-- A prime always passes `is_prime_mr`, for every draw stream and every
confidence parameter. -/
theorem is_prime_mr_prime {p : Nat} (hp : p.Prime) (k : Nat) (s : Nat → Nat) :
    is_prime_mr p k s = true := by
  unfold is_prime_mr
  by_cases h23 : p = 2 ∨ p = 3
  · rw [if_neg, if_pos h23]
    rcases h23 with h | h <;> subst h <;> simp
  · have hne2 : p ≠ 2 := by tauto
    have hne3 : p ≠ 3 := by tauto
    have hodd : p % 2 = 1 := Nat.odd_iff.mp (hp.odd_of_ne_two hne2)
    have hp2 : 2 ≤ p := hp.two_le
    have hp5 : 5 ≤ p := by
      rcases Nat.lt_or_ge p 5 with h | h
      · interval_cases p <;> simp_all
      · exact h
    rw [if_neg (by omega), if_neg h23]
    exact mrLoop_prime hp hp5 s k 0

theorem nextPrimeLoop_ge (s : Nat → Nat) :
    ∀ (fuel cand idx m : Nat), nextPrimeLoop s fuel cand idx = some m → cand ≤ m := by
  intro fuel
  induction fuel with
  | zero => intro cand idx m h; exact absurd h (by simp [nextPrimeLoop])
  | succ fuel ih =>
    intro cand idx m h
    rw [nextPrimeLoop] at h
    by_cases hc : is_prime cand (fun j => s (idx + j)) = true
    · rw [if_pos hc] at h
      injection h with h
      omega
    · rw [if_neg hc] at h
      have := ih (cand + 2) (idx + 100) m h
      omega

/-- The candidate loop finds exactly the least prime on its grid, provided
the Miller–Rabin verdicts agree with true primality on the candidates it
visits. -/
theorem nextPrimeLoop_correct (s : Nat → Nat) :
    ∀ (fuel cand idx : Nat), cand % 2 = 1 → 2 < cand →
      (∀ j, j < fuel →
        (is_prime (cand + 2 * j) (fun i => s (idx + 100 * j + i)) = true
          ↔ Nat.Prime (cand + 2 * j))) →
      (∃ j, j < fuel ∧ Nat.Prime (cand + 2 * j)) →
      ∃ m, nextPrimeLoop s fuel cand idx = some m ∧ Nat.Prime m ∧ cand ≤ m ∧
        ∀ q, cand ≤ q → q < m → ¬ Nat.Prime q := by
  intro fuel
  induction fuel with
  | zero =>
    intro cand idx hodd hc hcls hex
    obtain ⟨j, hj, _⟩ := hex
    omega
  | succ fuel ih =>
    intro cand idx hodd hc hcls hex
    rw [nextPrimeLoop]
    have h0 := hcls 0 (by omega)
    have hstream0 : (fun i => s (idx + 100 * 0 + i)) = (fun j => s (idx + j)) := by
      funext i
      simp
    rw [hstream0] at h0
    simp only [Nat.mul_zero, Nat.add_zero] at h0
    by_cases hp0 : is_prime cand (fun j => s (idx + j)) = true
    · rw [if_pos hp0]
      exact ⟨cand, rfl, h0.mp hp0, le_rfl, fun q hq1 hq2 => by omega⟩
    · rw [if_neg hp0]
      have hnp : ¬ Nat.Prime cand := fun hP => hp0 (h0.mpr hP)
      have hcls' : ∀ j, j < fuel →
          (is_prime (cand + 2 + 2 * j) (fun i => s (idx + 100 + 100 * j + i)) = true
            ↔ Nat.Prime (cand + 2 + 2 * j)) := by
        intro j hj
        have := hcls (j + 1) (by omega)
        have harg : cand + 2 * (j + 1) = cand + 2 + 2 * j := by omega
        have hstr : (fun i => s (idx + 100 * (j + 1) + i))
            = (fun i => s (idx + 100 + 100 * j + i)) := by
          funext i
          congr 1
          omega
        rwa [harg, hstr] at this
      have hex' : ∃ j, j < fuel ∧ Nat.Prime (cand + 2 + 2 * j) := by
        obtain ⟨j, hj, hPj⟩ := hex
        cases j with
        | zero => exact absurd (by simpa using hPj) hnp
        | succ j =>
          refine ⟨j, by omega, ?_⟩
          have harg : cand + 2 + 2 * j = cand + 2 * (j + 1) := by omega
          rw [harg]
          exact hPj
      obtain ⟨m, hm, hPm, hge, hmin⟩ := ih (cand + 2) (idx + 100) (by omega) (by omega)
        hcls' hex'
      refine ⟨m, hm, hPm, by omega, ?_⟩
      intro q hq1 hq2
      rcases Nat.lt_or_ge q (cand + 2) with h | h
      · rcases Nat.eq_or_lt_of_le hq1 with rfl | h'
        · exact hnp
        · intro hQ
          have heven : q % 2 = 0 := by omega
          have := (Nat.Prime.even_iff hQ).mp (Nat.even_iff.mpr heven)
          omega
      · exact hmin q h hq2

/-! ### C7: `next_prime` and the randomized Miller–Rabin test -/

theorem mrLoop_2047_liar (s : Nat → Nat) (hs : ∀ i, s i % (2047 - 3) = 0) :
    ∀ (k i : Nat), mrLoop 2047 s k i = true := by
  intro k
  induction k with
  | zero => intro i; rfl
  | succ k ih =>
    intro i
    rw [mrLoop]
    have ha : 2 + s i % (2047 - 3) = 2 := by rw [hs i]
    rw [ha, show witness 2 2047 = false by decide]
    simp only [Bool.false_eq_true, if_false]
    exact ih (i + 1)

/-- Counterexample for C7 as stated: the primality test is not the
deterministic 12-witness Miller–Rabin.  2047 = 23·89 is a strong pseudoprime
to base 2, and with all 100 random draws equal to 2 (stream constantly 0)
`next_prime(2046)` returns the composite 2047.  A deterministic 12-witness
test would have rejected it (witness 3 already exposes 2047). -/
theorem c7_counterexample_next_prime_composite :
    next_prime 2046 (fun _ => 0) 1 = some 2047 ∧ ¬ Nat.Prime 2047 ∧
    witness 3 2047 = true := by
  refine ⟨?_, by norm_num, by decide⟩
  unfold next_prime
  rw [if_neg (by omega), if_pos (by norm_num)]
  rw [nextPrimeLoop]
  have hprime : is_prime 2047 (fun j => (fun _ : Nat => 0) (0 + j)) = true := by
    show is_prime_mr 2047 100 _ = true
    unfold is_prime_mr
    rw [if_neg (by norm_num), if_neg (by norm_num)]
    exact mrLoop_2047_liar _ (fun i => by norm_num) 100 0
  rw [if_pos hprime]

/-- Claim C7 (amended): `hash.rs` decides primality by probabilistic
Miller–Rabin with 100 uniformly random witnesses, not by the deterministic
12-witness test the spec describes.  What does hold: `next_prime n ≥ n`
always; a true prime passes the test whatever the draws; and whenever the
randomized verdicts agree with true primality on the candidates examined,
`next_prime n` is exactly the smallest prime ≥ n (for `n ≤ 2` it is the
constant 2). -/
theorem c7_next_prime_amended :
    (∀ n fuel m : Nat, ∀ s : Nat → Nat, next_prime n s fuel = some m → n ≤ m) ∧
    (∀ p : Nat, Nat.Prime p → ∀ k : Nat, ∀ s : Nat → Nat, is_prime_mr p k s = true) ∧
    (∀ n fuel : Nat, ∀ s : Nat → Nat, 3 ≤ n → n + 1 ≤ fuel →
      (∀ c idx : Nat, n ≤ c → c < n + 2 * fuel → idx % 100 = 0 → idx < 100 * fuel →
        (is_prime c (fun j => s (idx + j)) = true ↔ Nat.Prime c)) →
      ∃ m, next_prime n s fuel = some m ∧ Nat.Prime m ∧ n ≤ m ∧
        ∀ q, n ≤ q → q < m → ¬ Nat.Prime q) ∧
    (∀ n fuel : Nat, ∀ s : Nat → Nat, n ≤ 2 → next_prime n s fuel = some 2) := by
  refine ⟨?_, ?_, ?_, ?_⟩
  · intro n fuel m s h
    unfold next_prime at h
    by_cases h2 : n ≤ 2
    · rw [if_pos h2] at h
      injection h with h
      omega
    · rw [if_neg h2] at h
      have := nextPrimeLoop_ge s fuel _ 0 m h
      by_cases hpar : n % 2 = 0 <;> simp [hpar] at this <;> omega
  · intro p hp k s
    exact is_prime_mr_prime hp k s
  · intro n fuel s hn hfuel hcls
    unfold next_prime
    rw [if_neg (by omega)]
    set cand := if n % 2 = 0 then n + 1 else n with hcand
    have hcand_ge : n ≤ cand := by rw [hcand]; split_ifs <;> omega
    have hcand_le : cand ≤ n + 1 := by rw [hcand]; split_ifs <;> omega
    have hcand_odd : cand % 2 = 1 := by rw [hcand]; split_ifs with h <;> omega
    have hcand_gt : 2 < cand := by omega
    have hcls2 : ∀ j, j < fuel →
        (is_prime (cand + 2 * j) (fun i => s (0 + 100 * j + i)) = true
          ↔ Nat.Prime (cand + 2 * j)) := by
      intro j hj
      have := hcls (cand + 2 * j) (100 * j) (by omega) (by omega)
        (Nat.mul_mod_right 100 j) (by omega)
      have hstr : (fun i => s (0 + 100 * j + i)) = (fun i => s (100 * j + i)) := by
        funext i
        norm_num
      rw [hstr]
      exact this
    have hex2 : ∃ j, j < fuel ∧ Nat.Prime (cand + 2 * j) := by
      obtain ⟨p, hP, hgt, hle⟩ := Nat.exists_prime_lt_and_le_two_mul n (by omega)
      have hp2 : p ≠ 2 := by omega
      have hpodd : p % 2 = 1 := Nat.odd_iff.mp (hP.odd_of_ne_two hp2)
      have hpge : cand ≤ p := by omega
      have heven : (p - cand) % 2 = 0 := by omega
      refine ⟨(p - cand) / 2, by omega, ?_⟩
      have harg : cand + 2 * ((p - cand) / 2) = p := by omega
      rw [harg]
      exact hP
    obtain ⟨m, hm, hPm, hge, hmin⟩ := nextPrimeLoop_correct s fuel cand 0
      hcand_odd hcand_gt hcls2 hex2
    refine ⟨m, hm, hPm, by omega, ?_⟩
    intro q hq1 hq2
    rcases Nat.lt_or_ge q cand with h | h
    · intro hQ
      have hqn : q = n := by omega
      have hne : n % 2 = 0 := by
        by_contra hodd
        rw [hcand] at h
        rw [if_neg hodd] at h
        omega
      have heven := (Nat.Prime.even_iff (hqn ▸ hQ)).mp (Nat.even_iff.mpr (by omega))
      omega
    · exact hmin q h hq2
  · intro n fuel s h2
    unfold next_prime
    rw [if_pos h2]

/-- Witness for C7 (amended) at concrete inputs: with the constant-0 stream,
`next_prime 10` finds 11; the prime 11 passes the test with other draws; the
small-input branch returns 2. -/
theorem c7_next_prime_amended_witness :
    next_prime 10 (fun _ => 0) 11 = some 11 ∧
    is_prime_mr 11 3 (fun _ => 5) = true ∧
    next_prime 0 (fun _ => 0) 5 = some 2 := by
  refine ⟨?_, c7_next_prime_amended.2.1 11 (by norm_num) 3 (fun _ => 5),
    c7_next_prime_amended.2.2.2 0 5 (fun _ => 0) (by norm_num)⟩
  have hcls0 : ∀ c idx : Nat, 10 ≤ c → c < 10 + 2 * 11 → idx % 100 = 0 → idx < 100 * 11 →
      (is_prime c (fun j => (fun _ : Nat => (0 : Nat)) (idx + j)) = true ↔ Nat.Prime c) := by
    intro c idx hc1 hc2 hcm hcl
    have hstream : (fun j => (fun _ : Nat => (0 : Nat)) (idx + j))
        = (fun _ : Nat => (0 : Nat)) := rfl
    rw [hstream]
    interval_cases c
    all_goals
      first
        | exact iff_of_false (by decide) (by norm_num)
        | exact iff_of_true (is_prime_mr_prime (by norm_num) 100 _) (by norm_num)
  obtain ⟨m, hm, hP, hge, hmin⟩ :=
    c7_next_prime_amended.2.2.1 10 11 (fun _ => 0) (by norm_num) (by norm_num) hcls0
  have h11 : Nat.Prime 11 := by norm_num
  have hle : m ≤ 11 := not_lt.mp (fun hgt => hmin 11 (by norm_num) hgt h11)
  interval_cases m
  · exact absurd hP (by norm_num)
  · exact hm

/-! ### C1 / C2: the correcting algorithm's checkpoint-class fingerprint read -/

/-- C1: `diff_correcting` computes the checkpoint class `k` from
`fingerprint(v, |V|/2, p)` whenever `p ≤ |V|`; at `V = "AB"`, `p = 2` that
fingerprint reads `v[1]` and `v[2]`, and index 2 is past the end of `V` —
in Rust an out-of-bounds panic, so the differencing call fails instead of
returning commands.  The conjunction states exactly the guard that is
satisfied and the bound that is violated. -/
theorem c1_correcting_checkpoint_read_oob :
    2 ≤ ([65, 66] : List Nat).length ∧
    ([65, 66] : List Nat).length < correcting_k_offset [65, 66] + 2 := by
  decide

/-- C2: the in-place pipeline (C2's claim) runs the differencing algorithm
first, so `make_inplace ∘ diff_correcting` hits the same out-of-bounds
fingerprint read; at `V = [10,20,30,40]`, `p = 3` the window
`[|V|/2, |V|/2 + p)` again exceeds `|V|`.  The second conjunct shows the
rest of the pipeline is sound: on the total model (out-of-bounds reads as
zero) the correcting delta converted by `make_inplace` and applied in-place
does reconstruct V, so the failure is precisely the panic. -/
theorem c2_inplace_correcting_oob :
    (3 ≤ ([10, 20, 30, 40] : List Nat).length ∧
      ([10, 20, 30, 40] : List Nat).length < correcting_k_offset [10, 20, 30, 40] + 3) ∧
    ((diff_correctingCore [10, 20, 30, 40] [10, 20, 30, 40] 3 5 7 256).bind fun cs =>
        (make_inplace [10, 20, 30, 40] cs .Constant 100).map fun pcs =>
          apply_delta_inplace [10, 20, 30, 40] pcs 4) = some [10, 20, 30, 40] := by
  decide

/-! ### C4: the identity delta -/

/-- C4 counterexample: with `R = V = "A"` and `p = 2` the greedy algorithm
emits an Add command (the whole version as a literal), not only Copies:
no seed fits in a one-byte string, so the scan loop never runs and the
trailing Add covers all of V. -/
theorem c4_counterexample_identity_emits_add :
    diff_greedy [65] [65] 2 = [Command.Add [65]] := by decide

/-! ### C8: cycle-breaking policies -/

/-- C8 counterexample: for `R = [0,…,10]`, `V = [5,6,7,8,9,0,1,2,2,3,4]`,
`p = 2`, the greedy delta is three Copies forming two cycles that share
vertex 0 (length 5).  Localmin breaks each found cycle at its own minimum
(3 + 3 = 6 literal bytes) while Constant converts the shared vertex first
(5 literal bytes), so Localmin produces strictly MORE Add bytes; both
conversions still reconstruct V in place. -/
theorem c8_counterexample_localmin_not_dominant :
    (make_inplace [0,1,2,3,4,5,6,7,8,9,10]
        (diff_greedy [0,1,2,3,4,5,6,7,8,9,10] [5,6,7,8,9,0,1,2,2,3,4] 2)
        CyclePolicy.Constant 100).map placedAddBytes = some 5 ∧
    (make_inplace [0,1,2,3,4,5,6,7,8,9,10]
        (diff_greedy [0,1,2,3,4,5,6,7,8,9,10] [5,6,7,8,9,0,1,2,2,3,4] 2)
        CyclePolicy.Localmin 100).map placedAddBytes = some 6 ∧
    (make_inplace [0,1,2,3,4,5,6,7,8,9,10]
        (diff_greedy [0,1,2,3,4,5,6,7,8,9,10] [5,6,7,8,9,0,1,2,2,3,4] 2)
        CyclePolicy.Constant 100).map
      (fun pcs => apply_delta_inplace [0,1,2,3,4,5,6,7,8,9,10] pcs 11) =
      some [5,6,7,8,9,0,1,2,2,3,4] ∧
    (make_inplace [0,1,2,3,4,5,6,7,8,9,10]
        (diff_greedy [0,1,2,3,4,5,6,7,8,9,10] [5,6,7,8,9,0,1,2,2,3,4] 2)
        CyclePolicy.Localmin 100).map
      (fun pcs => apply_delta_inplace [0,1,2,3,4,5,6,7,8,9,10] pcs 11) =
      some [5,6,7,8,9,0,1,2,2,3,4] := by
  decide

/-- C8 amended: neither cycle-breaking policy dominates the other.  On a
plain two-block swap (one cycle of two copies) Localmin converts the
shorter copy and beats Constant (2 < 3 literal bytes); on two cycles
sharing their longest copy, Localmin's per-cycle minima lose to Constant's
single shared conversion (6 > 5).  Localmin's choice is the minimum-length
copy of the one cycle found, which is not a global optimum. -/
theorem c8_amended_policies_incomparable :
    ((make_inplace [1,2,10,20,30] [Command.Copy 2 3, Command.Copy 0 2]
        CyclePolicy.Localmin 100).map placedAddBytes = some 2 ∧
     (make_inplace [1,2,10,20,30] [Command.Copy 2 3, Command.Copy 0 2]
        CyclePolicy.Constant 100).map placedAddBytes = some 3) ∧
    ((make_inplace [7,7,3,4,5,6,1,2,9,9,9]
        [Command.Copy 5 5, Command.Copy 0 3, Command.Copy 2 3]
        CyclePolicy.Localmin 100).map placedAddBytes = some 6 ∧
     (make_inplace [7,7,3,4,5,6,1,2,9,9,9]
        [Command.Copy 5 5, Command.Copy 0 3, Command.Copy 2 3]
        CyclePolicy.Constant 100).map placedAddBytes = some 5) := by
  decide

/-! ### C9: determinism across runs -/

/-- C9 counterexample: two runs of the one-pass algorithm on identical
inputs and options (`R = [0,38,9,1,0]`, `V = [0,13,1,0]`, `p = 2`,
`q = 25`) with different Miller–Rabin witness draws produce different
command sequences: the constant-7 draw stream makes 25 pass the test (7 is
a strong liar for 25) so the table is sized 25, while the constant-2 stream
rejects 25 and 27 and sizes the table 29, changing slot collisions and thus
the emitted delta. -/
theorem c9_counterexample_onepass_run_divergence :
    diff_onepass [0,38,9,1,0] [0,13,1,0] 2 25 (fun _ => 5) 3 =
      some [Command.Add [0,13,1,0]] ∧
    diff_onepass [0,38,9,1,0] [0,13,1,0] 2 25 (fun _ => 0) 3 =
      some [Command.Add [0,13], Command.Copy 3 2] ∧
    diff_onepass [0,38,9,1,0] [0,13,1,0] 2 25 (fun _ => 5) 3 ≠
      diff_onepass [0,38,9,1,0] [0,13,1,0] 2 25 (fun _ => 0) 3 := by
  decide

/-- C9 amended: the randomized witness draws influence the output only
through the `next_prime` table sizing; whenever two runs' `next_prime`
results agree, the one-pass and correcting algorithms are deterministic
functions of (R, V, options).  (The greedy algorithm consumes no
randomness at all.) -/
theorem c9_amended_determinism_under_equal_sizing
    (r v : List Nat) (p q buf_cap fuel : Nat) (s1 s2 t1 t2 : Nat → Nat)
    (hs : ∀ n, next_prime n s1 fuel = next_prime n s2 fuel)
    (ht : ∀ n, next_prime n t1 fuel = next_prime n t2 fuel) :
    diff_onepass r v p q s1 fuel = diff_onepass r v p q s2 fuel ∧
    diff_correcting r v p q buf_cap s1 t1 fuel =
      diff_correcting r v p q buf_cap s2 t2 fuel := by
  constructor
  · unfold diff_onepass
    split
    · rfl
    · simp only [hs]
  · unfold diff_correcting
    split
    · rfl
    · simp only [hs, ht]

/-- C9 amended, witness: two runs with identical draw streams agree. -/
theorem c9_amended_determinism_under_equal_sizing_witness :
    diff_onepass [1,2,3] [1,2,3] 2 3 (fun _ => 0) 5 =
      diff_onepass [1,2,3] [1,2,3] 2 3 (fun _ => 0) 5 ∧
    diff_correcting [1,2,3] [1,2,3] 2 3 256 (fun _ => 0) (fun _ => 0) 5 =
      diff_correcting [1,2,3] [1,2,3] 2 3 256 (fun _ => 0) (fun _ => 0) 5 :=
  c9_amended_determinism_under_equal_sizing [1,2,3] [1,2,3] 2 3 256 5
    (fun _ => 0) (fun _ => 0) (fun _ => 0) (fun _ => 0)
    (fun _ => rfl) (fun _ => rfl)

/-! ### List and size helpers for the algorithm invariants -/

theorem getD_set_eq {α : Type} (l : List α) (i : Nat) (a d : α) (h : i < l.length) :
    (l.set i a).getD i d = a := by
  simp [List.getD, List.getElem?_set_self, h]

theorem getD_set_ne {α : Type} (l : List α) (i j : Nat) (a d : α) (h : i ≠ j) :
    (l.set i a).getD j d = l.getD j d := by
  simp [List.getD, List.getElem?_set_ne h]

theorem getD_replicate {α : Type} (n j : Nat) (a d : α) :
    (List.replicate n a).getD j d = if j < n then a else d := by
  by_cases h : j < n
  · simp [List.getD, List.getElem?_replicate, h]
  · simp [List.getD, List.getElem?_replicate, h]
  
theorem output_size_append (a b : List Command) :
    output_size (a ++ b) = output_size a + output_size b := by
  simp [output_size]

theorem output_size_cmdLen (cs : List Command) :
    output_size cs = (cs.map cmdLen).sum := by
  unfold output_size cmdLen
  rfl

theorem output_size_singleton (c : Command) : output_size [c] = cmdLen c := by
  cases c <;> rfl

theorem cmdLen_copy_slice (v : List Nat) (a n : Nat) (h : a + n ≤ v.length) :
    cmdLen (Command.Add ((v.drop a).take n)) = n := by
  simp [cmdLen]
  omega

/-! ### Extension-loop bounds -/

theorem extendFwdF_bounds (r v : List Nat) :
    ∀ fuel rc vc ml, vc + ml ≤ v.length → rc + ml ≤ r.length →
      ml ≤ extendFwdF fuel r v rc vc ml ∧
      vc + extendFwdF fuel r v rc vc ml ≤ v.length ∧
      rc + extendFwdF fuel r v rc vc ml ≤ r.length := by
  intro fuel
  induction fuel with
  | zero => intro rc vc ml h1 h2; exact ⟨le_refl _, h1, h2⟩
  | succ n ih =>
      intro rc vc ml h1 h2
      unfold extendFwdF
      split
      · rename_i hcond
        have := ih rc vc (ml + 1) (by omega) (by omega)
        exact ⟨by omega, this.2.1, this.2.2⟩
      · exact ⟨le_refl _, h1, h2⟩

theorem extendBwdF_le (r v : List Nat) :
    ∀ fuel r_off vc bwd, bwd ≤ vc → bwd ≤ r_off →
      extendBwdF fuel r v r_off vc bwd ≤ vc ∧
      extendBwdF fuel r v r_off vc bwd ≤ r_off := by
  intro fuel
  induction fuel with
  | zero => intro r_off vc bwd h1 h2; exact ⟨h1, h2⟩
  | succ n ih =>
      intro r_off vc bwd h1 h2
      unfold extendBwdF
      split
      · rename_i hcond
        exact ih r_off vc (bwd + 1) hcond.1 hcond.2.1
      · exact ⟨h1, h2⟩

/-! ### Greedy: sizes and bounds -/

theorem greedyPick_bounds (r v : List Nat) (p vc : Nat) (hv : vc + p ≤ v.length) :
    greedyPick r v p vc = (none, 0) ∨
    ∃ a, (greedyPick r v p vc).1 = some a ∧
      a + (greedyPick r v p vc).2 ≤ r.length ∧
      vc + (greedyPick r v p vc).2 ≤ v.length := by
  unfold greedyPick
  have hc : ∀ a ∈ greedyCandidates r p (fingerprint v vc p), a + p ≤ r.length := by
    intro a ha
    unfold greedyCandidates at ha
    have hr := List.mem_range.mp (List.mem_filter.mp ha).1
    omega
  suffices H : ∀ (l : List Nat), (∀ a ∈ l, a + p ≤ r.length) →
      ∀ best : Option Nat × Nat,
        (best = (none, 0) ∨
          ∃ a, best.1 = some a ∧ a + best.2 ≤ r.length ∧ vc + best.2 ≤ v.length) →
        (l.foldl
          (fun best rcand =>
            if (r.drop rcand).take p = (v.drop vc).take p then
              let ml := extendFwdF (v.length + 1) r v rcand vc p
              if best.2 < ml then (some rcand, ml) else best
            else best)
          best = (none, 0) ∨
          ∃ a, (l.foldl
            (fun best rcand =>
              if (r.drop rcand).take p = (v.drop vc).take p then
                let ml := extendFwdF (v.length + 1) r v rcand vc p
                if best.2 < ml then (some rcand, ml) else best
              else best)
            best).1 = some a ∧
            a + (l.foldl
              (fun best rcand =>
                if (r.drop rcand).take p = (v.drop vc).take p then
                  let ml := extendFwdF (v.length + 1) r v rcand vc p
                  if best.2 < ml then (some rcand, ml) else best
                else best)
              best).2 ≤ r.length ∧
            vc + (l.foldl
              (fun best rcand =>
                if (r.drop rcand).take p = (v.drop vc).take p then
                  let ml := extendFwdF (v.length + 1) r v rcand vc p
                  if best.2 < ml then (some rcand, ml) else best
                else best)
              best).2 ≤ v.length) by
    exact H _ hc _ (Or.inl rfl)
  intro l
  induction l with
  | nil => intro _ best hb; simpa using hb
  | cons a l ih =>
      intro hl best hb
      simp only [List.foldl_cons]
      apply ih (fun x hx => hl x (List.mem_cons_of_mem _ hx))
      by_cases hbytes : (r.drop a).take p = (v.drop vc).take p
      · simp only [hbytes, if_true]
        have ha := hl a (List.mem_cons_self _ _)
        have hext := extendFwdF_bounds r v (v.length + 1) a vc p hv ha
        by_cases hlt : best.2 < extendFwdF (v.length + 1) r v a vc p
        · simp only [hlt, if_true]
          exact Or.inr ⟨a, rfl, hext.2.2, hext.2.1⟩
        · simp only [hlt, if_false]
          exact hb
      · simp only [hbytes, if_false]
        exact hb

theorem greedyLoop_sizes (r v : List Nat) (p : Nat) :
    ∀ fuel vc vs acc,
      vs ≤ vc → vs ≤ v.length →
      output_size acc = vs → (∀ c ∈ acc, CmdInBounds r.length c) →
      output_size (greedyLoop r v p fuel vc vs acc).1 = (greedyLoop r v p fuel vc vs acc).2 ∧
      (greedyLoop r v p fuel vc vs acc).2 ≤ v.length ∧
      ∀ c ∈ (greedyLoop r v p fuel vc vs acc).1, CmdInBounds r.length c := by
  intro fuel
  induction fuel with
  | zero => intro vc vs acc h1 h2 h3 h4; exact ⟨h3, h2, h4⟩
  | succ n ih =>
      intro vc vs acc h1 h2 h3 h4
      simp only [greedyLoop]
      split
      · exact ⟨h3, h2, h4⟩
      · rename_i hguard
        have hvp : vc + p ≤ v.length := by omega
        split
        · exact ih (vc + 1) vs acc (by omega) h2 h3 h4
        · rename_i hml
          have hacc1 : output_size
              (if vs < vc then acc ++ [Command.Add ((v.drop vs).take (vc - vs))] else acc) = vc := by
            split
            · rename_i hvs
              rw [output_size_append, output_size_singleton, h3]
              have hlen : ((v.drop vs).take (vc - vs)).length = vc - vs := by
                simp
                omega
              simp only [cmdLen, hlen]
              omega
            · rename_i hvs
              rw [h3]
              omega
          have hacc1b : ∀ c ∈
              (if vs < vc then acc ++ [Command.Add ((v.drop vs).take (vc - vs))] else acc),
              CmdInBounds r.length c := by
            split
            · intro c hc
              rcases List.mem_append.mp hc with hc | hc
              · exact h4 c hc
              · simp at hc
                subst hc
                simp [CmdInBounds]
            · exact h4
          rcases greedyPick_bounds r v p vc hvp with hpick | ⟨a, ha, har, hav⟩
          · rw [hpick] at hml ⊢
            simp only at hml ⊢
            apply ih (vc + 0) (vc + 0) _ (le_refl _) (by omega)
            · rw [output_size_append, hacc1, output_size_singleton]
              rfl
            · intro c hc
              rcases List.mem_append.mp hc with hc | hc
              · exact hacc1b c hc
              · simp at hc
                subst hc
                simp [CmdInBounds]
          · rw [ha]
            apply ih _ _ _ (le_refl _) (by omega)
            · rw [output_size_append, hacc1, output_size_singleton]
              rfl
            · intro c hc
              rcases List.mem_append.mp hc with hc | hc
              · exact hacc1b c hc
              · simp at hc
                subst hc
                simpa [CmdInBounds] using har

/-! ### One-pass: sizes and bounds -/

theorem getD_set_cases {α : Type} (l : List α) (i j : Nat) (a d : α) :
    (l.set i a).getD j d = a ∨ (l.set i a).getD j d = l.getD j d := by
  by_cases h1 : i = j
  · subst h1
    by_cases h2 : i < l.length
    · exact Or.inl (getD_set_eq l i a d h2)
    · right
      rw [List.set_eq_of_length_le (by omega)]
  · exact Or.inr (getD_set_ne l i j a d h1)

theorem ht_put_inv {P : Nat × Nat × Nat → Prop} (table : List (Option (Nat × Nat × Nat)))
    (fp off q ver : Nat)
    (hT : ∀ j e, table.getD j none = some e → P e) (hnew : P (fp, off, ver)) :
    ∀ j e, (ht_put table fp off q ver).getD j none = some e → P e := by
  intro j e he
  simp only [ht_put] at he
  split at he
  · rename_i a b c heq
    split at he
    · exact hT j e he
    · rcases getD_set_cases table (fp % q) j (some (fp, off, ver)) none with hc | hc <;>
        rw [hc] at he
      · injection he with he'
        subst he'
        exact hnew
      · exact hT j e he
  · rcases getD_set_cases table (fp % q) j (some (fp, off, ver)) none with hc | hc <;>
      rw [hc] at he
    · injection he with he'
      subst he'
      exact hnew
    · exact hT j e he

theorem ht_get_spec (table : List (Option (Nat × Nat × Nat))) (fp q ver off : Nat)
    (h : ht_get table fp q ver = some off) :
    ∃ sfp, table.getD (fp % q) none = some (sfp, off, ver) := by
  unfold ht_get at h
  split at h
  · rename_i sfp off' sver heq
    split at h
    · rename_i hcond
      injection h with h'
      subst h'
      refine ⟨sfp, ?_⟩
      rw [heq, hcond.1]
    · exact absurd h (by simp)
  · exact absurd h (by simp)

theorem onepassFindMatch_spec (r v : List Nat) (p q : Nat) (st : OnepassState)
    (fpv fpr : Option Nat) (m : Nat × Nat)
    (h : onepassFindMatch r v p q st fpv fpr = some m)
    (hfpv : fpv.isSome = true → st.vc + p ≤ v.length)
    (hfpr : fpr.isSome = true → st.rc + p ≤ r.length)
    (hv : ∀ j e, st.hv.getD j none = some e →
      e.2.2 ≤ st.ver ∧ (e.2.2 = st.ver → st.vs ≤ e.2.1 ∧ e.2.1 + p ≤ v.length))
    (hr : ∀ j e, st.hr.getD j none = some e →
      e.2.2 ≤ st.ver ∧ (e.2.2 = st.ver → e.2.1 + p ≤ r.length))
    (hvsvc : st.vs ≤ st.vc) :
    st.vs ≤ m.2 ∧ m.2 + p ≤ v.length ∧ m.1 + p ≤ r.length := by
  simp only [onepassFindMatch] at h
  split at h
  · -- the R-against-V lookup produced some m'
    rename_i m' hfirst
    injection h with h'
    subst h'
    split at hfirst
    · rename_i fp
      split at hfirst
      · rename_i v_cand hget
        split at hfirst
        · injection hfirst with h2
          subst h2
          obtain ⟨sfp, hentry⟩ := ht_get_spec _ _ _ _ _ hget
          have hver := (hv _ _ hentry).2 rfl
          exact ⟨hver.1, hver.2, hfpr rfl⟩
        · exact absurd hfirst (by simp)
      · exact absurd hfirst (by simp)
    · exact absurd hfirst (by simp)
  · -- the V-against-R lookup
    split at h
    · rename_i fp
      split at h
      · rename_i r_cand hget
        split at h
        · injection h with h2
          subst h2
          obtain ⟨sfp, hentry⟩ := ht_get_spec _ _ _ _ _ hget
          have hver := (hr _ _ hentry).2 rfl
          exact ⟨hvsvc, hfpv rfl, hver⟩
        · exact absurd h (by simp)
      · exact absurd h (by simp)
    · exact absurd h (by simp)

theorem onepassLoop_sizes (r v : List Nat) (p q : Nat) :
    ∀ fuel (st : OnepassState) (out : List Command × Nat),
      st.vs ≤ st.vc → st.vs ≤ v.length →
      output_size st.acc = st.vs → (∀ c ∈ st.acc, CmdInBounds r.length c) →
      (∀ j e, st.hv.getD j none = some e →
        e.2.2 ≤ st.ver ∧ (e.2.2 = st.ver → st.vs ≤ e.2.1 ∧ e.2.1 + p ≤ v.length)) →
      (∀ j e, st.hr.getD j none = some e →
        e.2.2 ≤ st.ver ∧ (e.2.2 = st.ver → e.2.1 + p ≤ r.length)) →
      onepassLoop r v p q fuel st = some out →
      output_size out.1 = out.2 ∧ out.2 ≤ v.length ∧
        ∀ c ∈ out.1, CmdInBounds r.length c := by
  intro fuel
  induction fuel with
  | zero =>
      intro st out _ _ _ _ _ _ h
      exact absurd h (by simp [onepassLoop])
  | succ n ih =>
      intro st out h1 h2 h3 h4 hv hr hloop
      simp only [onepassLoop] at hloop
      split at hloop
      · injection hloop with h'
        subst h'
        exact ⟨h3, h2, h4⟩
      · rename_i hterm
        have hv1inv : ∀ j e,
            (match (if st.vc + p ≤ v.length then some (fingerprint v st.vc p) else none) with
              | some fp => ht_put st.hv fp st.vc q st.ver
              | none => st.hv).getD j none = some e →
            e.2.2 ≤ st.ver ∧ (e.2.2 = st.ver → st.vs ≤ e.2.1 ∧ e.2.1 + p ≤ v.length) := by
          split
          · rename_i fp hfp
            have hcv : st.vc + p ≤ v.length := by
              by_contra hc
              rw [if_neg hc] at hfp
              exact absurd hfp (by simp)
            exact ht_put_inv st.hv fp st.vc q st.ver hv ⟨le_refl _, fun _ => ⟨h1, hcv⟩⟩
          · exact hv
        have hr1inv : ∀ j e,
            (match (if st.rc + p ≤ r.length then some (fingerprint r st.rc p) else none) with
              | some fp => ht_put st.hr fp st.rc q st.ver
              | none => st.hr).getD j none = some e →
            e.2.2 ≤ st.ver ∧ (e.2.2 = st.ver → e.2.1 + p ≤ r.length) := by
          split
          · rename_i fp hfp
            have hcr : st.rc + p ≤ r.length := by
              by_contra hc
              rw [if_neg hc] at hfp
              exact absurd hfp (by simp)
            exact ht_put_inv st.hr fp st.rc q st.ver hr ⟨le_refl _, fun _ => hcr⟩
          · exact hr
        split at hloop
        · -- no match: advance both cursors
          refine ih _ out ?_ ?_ ?_ ?_ ?_ ?_ hloop
          · exact (show st.vs ≤ st.vc + 1 by omega)
          · exact h2
          · exact h3
          · exact h4
          · exact hv1inv
          · exact hr1inv
        · rename_i r_m v_m hfm
          obtain ⟨hvsm, hvmp, hrmp⟩ :=
            onepassFindMatch_spec r v p q _ _ _ (r_m, v_m) hfm
              (by
                intro hs
                by_contra hc
                rw [if_neg hc] at hs
                exact absurd hs (by simp))
              (by
                intro hs
                by_contra hc
                rw [if_neg hc] at hs
                exact absurd hs (by simp))
              hv1inv hr1inv h1
          simp only at hvsm hvmp hrmp
          have hext := extendFwdF_bounds r v (v.length + 1) r_m v_m 0
            (by omega) (by omega)
          split at hloop
          · -- short match: advance both cursors
            refine ih _ out ?_ ?_ ?_ ?_ ?_ ?_ hloop
            · exact (show st.vs ≤ st.vc + 1 by omega)
            · exact h2
            · exact h3
            · exact h4
            · exact hv1inv
            · exact hr1inv
          · -- emit an Add gap and the Copy
            refine ih _ out ?_ ?_ ?_ ?_ ?_ ?_ hloop
            · exact Nat.le_refl _
            · exact hext.2.1
            · show output_size
                ((if st.vs < v_m then
                    st.acc ++ [Command.Add ((v.drop st.vs).take (v_m - st.vs))]
                  else st.acc) ++
                  [Command.Copy r_m (extendFwdF (v.length + 1) r v r_m v_m 0)]) =
                  v_m + extendFwdF (v.length + 1) r v r_m v_m 0
              rw [output_size_append, output_size_singleton]
              have haux : output_size
                  (if st.vs < v_m then
                    st.acc ++ [Command.Add ((v.drop st.vs).take (v_m - st.vs))]
                  else st.acc) = v_m := by
                split
                · rw [output_size_append, output_size_singleton, h3]
                  simp only [cmdLen]
                  have : ((v.drop st.vs).take (v_m - st.vs)).length = v_m - st.vs := by
                    simp
                    omega
                  omega
                · rw [h3]
                  omega
              rw [haux]
              simp only [cmdLen]
            · show ∀ c ∈
                  (if st.vs < v_m then
                    st.acc ++ [Command.Add ((v.drop st.vs).take (v_m - st.vs))]
                  else st.acc) ++
                  [Command.Copy r_m (extendFwdF (v.length + 1) r v r_m v_m 0)],
                  CmdInBounds r.length c
              intro c hc
              rcases List.mem_append.mp hc with hc | hc
              · split at hc
                · rcases List.mem_append.mp hc with hc | hc
                  · exact h4 c hc
                  · simp at hc
                    subst hc
                    simp [CmdInBounds]
                · exact h4 c hc
              · simp at hc
                subst hc
                simp only [CmdInBounds]
                have := hext.2.2
                omega
            · intro j e he
              have h5 := (hv1inv j e he).1
              refine ⟨?_, ?_⟩
              · show e.2.2 ≤ st.ver + 1
                omega
              · show e.2.2 = st.ver + 1 →
                  v_m + extendFwdF (v.length + 1) r v r_m v_m 0 ≤ e.2.1 ∧
                    e.2.1 + p ≤ v.length
                intro hva
                exact absurd hva (by omega)
            · intro j e he
              have h5 := (hr1inv j e he).1
              refine ⟨?_, ?_⟩
              · show e.2.2 ≤ st.ver + 1
                omega
              · show e.2.2 = st.ver + 1 → e.2.1 + p ≤ r.length
                intro hva
                exact absurd hva (by omega)

/-! ### Correcting: the lookback-buffer tiling -/

theorem BufChain_facts (rlen : Nat) :
    ∀ (buf : List BufEntry) (w vs : Nat), BufChain rlen w buf vs →
      w ≤ vs ∧ (buf.map fun e => cmdLen e.cmd).sum = vs - w ∧
      ∀ e ∈ buf, CmdInBounds rlen e.cmd ∧ e.dummy = false := by
  intro buf
  induction buf with
  | nil =>
      intro w vs h
      unfold BufChain at h
      subst h
      simp
  | cons e rest ih =>
      intro w vs h
      unfold BufChain at h
      obtain ⟨hs, hd, hle, hlen, hb, hrest⟩ := h
      obtain ⟨ih1, ih2, ih3⟩ := ih e.v_end vs hrest
      refine ⟨by omega, ?_, ?_⟩
      · simp only [List.map_cons, List.sum_cons, ih2, hlen, hs]
        omega
      · intro f hf
        rcases List.mem_cons.mp hf with hf | hf
        · subst hf
          exact ⟨hb, hd⟩
        · exact ih3 f hf

theorem flushBuf_spec (rlen : Nat) (buf : List BufEntry) (acc : List Command)
    (w vs : Nat) (h : BufChain rlen w buf vs) (hacc : output_size acc = w)
    (haccb : ∀ c ∈ acc, CmdInBounds rlen c) :
    output_size (flushBuf buf acc) = vs ∧ ∀ c ∈ flushBuf buf acc, CmdInBounds rlen c := by
  obtain ⟨h1, h2, h3⟩ := BufChain_facts rlen buf w vs h
  have hfilter : (buf.filter fun e => !e.dummy) = buf := by
    apply List.filter_eq_self.mpr
    intro e he
    rw [(h3 e he).2]
    rfl
  unfold flushBuf
  rw [hfilter]
  constructor
  · rw [output_size_append, hacc]
    have hmm : output_size (buf.map fun x => x.cmd) = vs - w := by
      rw [output_size_cmdLen, List.map_map]
      rw [← h2]
      rfl
    rw [hmm]
    omega
  · intro c hc
    rcases List.mem_append.mp hc with hc | hc
    · exact haccb c hc
    · obtain ⟨e, he, hec⟩ := List.mem_map.mp hc
      rw [← hec]
      exact (h3 e he).1

theorem BufChain_append (rlen : Nat) :
    ∀ (l : List BufEntry) (w vs : Nat) (e : BufEntry),
      BufChain rlen w l vs → e.v_start = vs → e.dummy = false → vs ≤ e.v_end →
      cmdLen e.cmd = e.v_end - e.v_start → CmdInBounds rlen e.cmd →
      BufChain rlen w (l ++ [e]) e.v_end := by
  intro l
  induction l with
  | nil =>
      intro w vs e h hs hd hle hlen hb
      unfold BufChain at h
      subst h
      exact ⟨hs.symm ▸ rfl, hd, by omega, hlen, hb, rfl⟩
  | cons f rest ih =>
      intro w vs e h hs hd hle hlen hb
      obtain ⟨h1, h2, h3, h4, h5, h6⟩ := h
      exact ⟨h1, h2, h3, h4, h5, ih f.v_end vs e h6 hs hd hle hlen hb⟩

theorem BufChain_snoc (rlen : Nat) :
    ∀ (l : List BufEntry) (e : BufEntry) (w vs : Nat),
      BufChain rlen w (l ++ [e]) vs →
      BufChain rlen w l e.v_start ∧ e.dummy = false ∧ e.v_start ≤ e.v_end ∧
      cmdLen e.cmd = e.v_end - e.v_start ∧ CmdInBounds rlen e.cmd ∧ e.v_end = vs := by
  intro l
  induction l with
  | nil =>
      intro e w vs h
      obtain ⟨h1, h2, h3, h4, h5, h6⟩ := h
      unfold BufChain at h6
      exact ⟨h1.symm, h2, by omega, h4, h5, h6⟩
  | cons f rest ih =>
      intro e w vs h
      obtain ⟨h1, h2, h3, h4, h5, h6⟩ := h
      obtain ⟨ih1, ih2⟩ := ih e f.v_end vs h6
      exact ⟨⟨h1, h2, h3, h4, h5, ih1⟩, ih2⟩

theorem pushBuf_spec (rlen cap : Nat) (buf : List BufEntry) (acc : List Command)
    (e : BufEntry) (h : BufChain rlen (output_size acc) buf e.v_start)
    (hd : e.dummy = false) (hle : e.v_start ≤ e.v_end)
    (hlen : cmdLen e.cmd = e.v_end - e.v_start) (hb : CmdInBounds rlen e.cmd)
    (haccb : ∀ c ∈ acc, CmdInBounds rlen c) :
    BufChain rlen (output_size (pushBuf buf acc cap e).2) (pushBuf buf acc cap e).1 e.v_end ∧
    ∀ c ∈ (pushBuf buf acc cap e).2, CmdInBounds rlen c := by
  unfold pushBuf
  split
  · cases buf with
    | nil =>
        unfold BufChain at h
        show BufChain rlen (output_size acc) [e] e.v_end ∧
          ∀ c ∈ acc, CmdInBounds rlen c
        refine ⟨⟨h.symm, hd, by omega, hlen, hb, rfl⟩, haccb⟩
    | cons oldest rest =>
        obtain ⟨h1, h2, h3, h4, h5, h6⟩ := h
        show BufChain rlen
            (output_size (if oldest.dummy = true then acc else acc ++ [oldest.cmd]))
            (rest ++ [e]) e.v_end ∧
          ∀ c ∈ (if oldest.dummy = true then acc else acc ++ [oldest.cmd]),
            CmdInBounds rlen c
        rw [h2]
        simp only [Bool.false_eq_true, if_false]
        constructor
        · apply BufChain_append rlen rest _ e.v_start e _ rfl hd hle hlen hb
          rw [output_size_append, output_size_singleton, h4]
          have hend : output_size acc + (oldest.v_end - oldest.v_start) = oldest.v_end := by
            omega
          rw [hend]
          exact h6
        · intro c hc
          rcases List.mem_append.mp hc with hc | hc
          · exact haccb c hc
          · simp at hc
            subst hc
            exact h5
  · constructor
    · exact BufChain_append rlen buf _ e.v_start e h rfl hd hle hlen hb
    · exact haccb

theorem tailWalk_chain (rlen : Nat) (v : List Nat) (v_m match_end : Nat) :
    ∀ (bufR : List BufEntry) (es w : Nat),
      BufChain rlen w bufR.reverse es →
      v_m ≤ es → es ≤ match_end → match_end ≤ v.length →
      BufChain rlen w (tailWalk v v_m match_end bufR es).1.reverse
        (tailWalk v v_m match_end bufR es).2 ∧
      v_m ≤ (tailWalk v v_m match_end bufR es).2 ∧
      (tailWalk v v_m match_end bufR es).2 ≤ es := by
  intro bufR
  induction bufR with
  | nil =>
      intro es w h hv1 hv2 hv3
      exact ⟨h, hv1, le_refl _⟩
  | cons tail rest ih =>
      intro es w h hv1 hv2 hv3
      have hdec := BufChain_snoc rlen rest.reverse tail w es (by
        simpa using h)
      obtain ⟨hchain, hdummy, hse, hclen, hcb, hend⟩ := hdec
      unfold tailWalk
      rw [hdummy]
      simp only [Bool.false_eq_true, if_false]
      split
      · -- wholly inside the new match: absorb
        rename_i habs
        have hmin : min es tail.v_start = tail.v_start := by omega
        rw [hmin]
        have hrec := ih tail.v_start w hchain habs.1 (by omega) hv3
        exact ⟨hrec.1, hrec.2.1, by omega⟩
      · split
        · -- partial overlap
          rename_i hnabs hpart
          split
          · -- partial Add: trim to the left of the match
            rename_i data hcmd
            have hkeep : 0 < v_m - tail.v_start := by omega
            rw [if_pos hkeep]
            have hmin : min es v_m = v_m := by omega
            rw [hmin]
            refine ⟨?_, le_refl _, by omega⟩
            show BufChain rlen w
              ({ v_start := tail.v_start, v_end := v_m,
                  cmd := Command.Add ((v.drop tail.v_start).take (v_m - tail.v_start)),
                  dummy := false } :: rest).reverse v_m
            rw [List.reverse_cons]
            exact BufChain_append rlen rest.reverse w tail.v_start _ hchain rfl rfl
              (show tail.v_start ≤ v_m by omega)
              (cmdLen_copy_slice v tail.v_start (v_m - tail.v_start) (by omega))
              (by trivial)
          · -- partial Copy: stop, reclaim nothing
            exact ⟨h, hv1, le_refl _⟩
        · -- no overlap: stop
          exact ⟨h, hv1, le_refl _⟩

theorem correctingBuild_mem (r : List Nat) (p ns cap f_size m k : Nat)
    (hns : ∀ a, a < ns → a + p ≤ r.length) :
    ∀ slot e, (correctingBuild r p ns cap f_size m k).getD slot none = some e →
      e.2 + p ≤ r.length := by
  unfold correctingBuild
  have hgen : ∀ (l : List Nat) (tbl : List (Option (Nat × Nat))),
      (∀ a ∈ l, a + p ≤ r.length) →
      (∀ slot e, tbl.getD slot none = some e → e.2 + p ≤ r.length) →
      ∀ slot e,
        (l.foldl
          (fun tbl a =>
            let fp := fingerprint r a p
            let f := fp % f_size
            if f % m ≠ k then tbl
            else
              let i := f / m
              if cap ≤ i then tbl
              else
                match tbl.getD i none with
                | none => tbl.set i (some (fp, a))
                | some _ => tbl)
          tbl).getD slot none = some e → e.2 + p ≤ r.length := by
    intro l
    induction l with
    | nil => intro tbl _ htbl; exact htbl
    | cons a rest ih =>
        intro tbl hl htbl
        simp only [List.foldl_cons]
        apply ih _ (fun x hx => hl x (List.mem_cons_of_mem _ hx))
        intro slot e he
        split at he
        · exact htbl slot e he
        · split at he
          · exact htbl slot e he
          · split at he
            · rcases getD_set_cases tbl (fingerprint r a p % f_size / m) slot
                  (some (fingerprint r a p, a)) none with hc | hc <;> rw [hc] at he
              · injection he with he'
                subst he'
                exact hl a (List.mem_cons_self _ _)
              · exact htbl slot e he
            · exact htbl slot e he
  apply hgen
  · intro a ha
    exact hns a (List.mem_range.mp ha)
  · intro slot e he
    rw [getD_replicate] at he
    split at he <;> exact absurd he (by simp)

theorem correctingLoop_sizes (r v : List Nat) (p cap f_size m k buf_cap : Nat)
    (table : List (Option (Nat × Nat)))
    (htbl : ∀ slot e, table.getD slot none = some e → e.2 + p ≤ r.length) :
    ∀ fuel vc vs (buf : List BufEntry) (acc : List Command)
      (out : Nat × List BufEntry × List Command),
      vs ≤ vc → vs ≤ v.length →
      BufChain r.length (output_size acc) buf vs →
      (∀ c ∈ acc, CmdInBounds r.length c) →
      correctingLoop r v p cap f_size m k buf_cap table fuel vc vs buf acc = some out →
      BufChain r.length (output_size out.2.2) out.2.1 out.1 ∧ out.1 ≤ v.length ∧
        ∀ c ∈ out.2.2, CmdInBounds r.length c := by
  intro fuel
  induction fuel with
  | zero =>
      intro vc vs buf acc out _ _ _ _ h
      exact absurd h (by simp [correctingLoop])
  | succ n ih =>
      intro vc vs buf acc out h1 h2 h3 h4 hloop
      simp only [correctingLoop] at hloop
      split at hloop
      · injection hloop with h'
        subst h'
        exact ⟨h3, h2, h4⟩
      · rename_i hguard
        have hvp : vc + p ≤ v.length := by omega
        split at hloop
        · refine ih (vc + 1) vs buf acc out ?_ h2 h3 h4 hloop
          omega
        · split at hloop
          · refine ih (vc + 1) vs buf acc out ?_ h2 h3 h4 hloop
            omega
          · rename_i sfp offset heq
            split at hloop
            · refine ih (vc + 1) vs buf acc out ?_ h2 h3 h4 hloop
              omega
            · split at hloop
              · refine ih (vc + 1) vs buf acc out ?_ h2 h3 h4 hloop
                omega
              · -- verified match
                have hoff : offset + p ≤ r.length := htbl _ _ heq
                set FW := extendFwdF (v.length + 1) r v offset vc p with hFW
                set BW := extendBwdF (vc + 1) r v offset vc 0 with hBW
                have hfwd := extendFwdF_bounds r v (v.length + 1) offset vc p hvp hoff
                have hbwd := extendBwdF_le r v (vc + 1) offset vc 0 (Nat.zero_le _)
                  (Nat.zero_le _)
                rw [← hFW] at hfwd
                rw [← hBW] at hbwd
                split at hloop
                · -- match too short
                  refine ih (vc + 1) vs buf acc out ?_ h2 h3 h4 hloop
                  omega
                · rename_i hml
                  split at hloop
                  · -- (6a)
                    rename_i h6a
                    split at hloop
                    · -- gap Add, then Copy
                      rename_i hgap
                      have hs1 := pushBuf_spec r.length buf_cap buf acc
                        ⟨vs, vc - BW, Command.Add ((v.drop vs).take (vc - BW - vs)), false⟩
                        h3 rfl (show vs ≤ vc - BW by omega)
                        (cmdLen_copy_slice v vs _ (by omega))
                        (by trivial) h4
                      simp only at hs1
                      have hs2 := pushBuf_spec r.length buf_cap _ _
                        ⟨vc - BW, vc - BW + (BW + FW),
                          Command.Copy (offset - BW) (BW + FW), false⟩
                        hs1.1 rfl (show vc - BW ≤ vc - BW + (BW + FW) by omega)
                        (show cmdLen (Command.Copy (offset - BW) (BW + FW)) =
                          vc - BW + (BW + FW) - (vc - BW) by
                            simp only [cmdLen]
                            omega)
                        (show offset - BW + (BW + FW) ≤ r.length by omega) hs1.2
                      simp only at hs2
                      refine ih _ _ _ _ out (le_refl _) ?_ hs2.1 hs2.2 hloop
                      omega
                    · -- no gap: vs = v_m
                      rename_i hgap
                      have hvm : vs = vc - BW := by omega
                      have hs2 := pushBuf_spec r.length buf_cap buf acc
                        ⟨vc - BW, vc - BW + (BW + FW),
                          Command.Copy (offset - BW) (BW + FW), false⟩
                        (hvm ▸ h3) rfl (show vc - BW ≤ vc - BW + (BW + FW) by omega)
                        (show cmdLen (Command.Copy (offset - BW) (BW + FW)) =
                          vc - BW + (BW + FW) - (vc - BW) by
                            simp only [cmdLen]
                            omega)
                        (show offset - BW + (BW + FW) ≤ r.length by omega) h4
                      simp only at hs2
                      refine ih _ _ _ _ out (le_refl _) ?_ hs2.1 hs2.2 hloop
                      omega
                  · -- (6b): tail correction
                    rename_i h6b
                    set TW := tailWalk v (vc - BW) (vc - BW + (BW + FW)) buf.reverse vs
                      with hTW
                    have hwalk := tailWalk_chain r.length v (vc - BW)
                      (vc - BW + (BW + FW)) buf.reverse vs (output_size acc)
                      (by rw [List.reverse_reverse]; exact h3)
                      (by omega) (by omega) (by omega)
                    rw [← hTW] at hwalk
                    have hes1 := hwalk.2.1
                    have hes2 := hwalk.2.2
                    split at hloop
                    · -- push the corrected Copy
                      rename_i hnl
                      have hs2 := pushBuf_spec r.length buf_cap TW.1.reverse acc
                        ⟨TW.2, vc - BW + (BW + FW),
                          Command.Copy (offset - BW + (TW.2 - (vc - BW)))
                            (vc - BW + (BW + FW) - TW.2), false⟩
                        hwalk.1 rfl (show TW.2 ≤ vc - BW + (BW + FW) by omega)
                        (show cmdLen (Command.Copy (offset - BW + (TW.2 - (vc - BW)))
                            (vc - BW + (BW + FW) - TW.2)) =
                          vc - BW + (BW + FW) - TW.2 by rfl)
                        (show offset - BW + (TW.2 - (vc - BW)) +
                            (vc - BW + (BW + FW) - TW.2) ≤ r.length by omega) h4
                      simp only at hs2
                      refine ih _ _ _ _ out (le_refl _) ?_ hs2.1 hs2.2 hloop
                      omega
                    · -- nothing to push: the walk already reaches the match end
                      rename_i hnl
                      have hteq : TW.2 = vc - BW + (BW + FW) := by omega
                      rw [hteq] at hwalk
                      refine ih _ _ _ _ out (le_refl _) ?_ hwalk.1 h4 hloop
                      omega

/-! ### C10: output sizes and Copy bounds of the three algorithms -/

/-- C10: every Copy command emitted by `diff_greedy`, `diff_onepass` (any
table size) or `diff_correcting` (any table parameters) satisfies
`offset + length ≤ |R|`, and the emitted commands' output lengths sum to
exactly `|V|`; hence `apply_delta`'s slice reads `r[offset..offset+length]`
are in bounds on algorithm-produced commands. -/
theorem c10_copy_bounds_and_sizes :
    (∀ (r v : List Nat) (p : Nat),
      output_size (diff_greedy r v p) = v.length ∧
      ∀ c ∈ diff_greedy r v p, CmdInBounds r.length c) ∧
    (∀ (r v : List Nat) (p qsize : Nat) (cs : List Command),
      diff_onepassCore r v p qsize = some cs →
      output_size cs = v.length ∧ ∀ c ∈ cs, CmdInBounds r.length c) ∧
    (∀ (r v : List Nat) (p cap f_size buf_cap : Nat) (cs : List Command),
      diff_correctingCore r v p cap f_size buf_cap = some cs →
      output_size cs = v.length ∧ ∀ c ∈ cs, CmdInBounds r.length c) := by
  refine ⟨?_, ?_, ?_⟩
  · -- greedy
    intro r v p
    simp only [diff_greedy]
    split
    · rename_i hv0
      rw [hv0]
      exact ⟨rfl, by simp⟩
    · set LW := greedyLoop r v p (v.length + 1) 0 0 [] with hLW
      have hlw := greedyLoop_sizes r v p (v.length + 1) 0 0 [] (le_refl 0)
        (Nat.zero_le _) rfl (by simp)
      rw [← hLW] at hlw
      constructor
      · rw [output_size_append, hlw.1]
        split
        · rename_i hlt
          rw [output_size_singleton]
          simp only [cmdLen, List.length_drop]
          omega
        · rename_i hlt
          have := hlw.2.1
          simp only [output_size, List.map_nil, List.sum_nil]
          omega
      · intro c hc
        rcases List.mem_append.mp hc with hc | hc
        · exact hlw.2.2 c hc
        · split at hc
          · simp at hc
            subst hc
            simp [CmdInBounds]
          · simp at hc
  · -- one-pass
    intro r v p qsize cs h
    simp only [diff_onepassCore] at h
    split at h
    · rename_i hv0
      injection h with h'
      subst h'
      rw [hv0]
      exact ⟨rfl, by simp⟩
    · obtain ⟨out, hloop, hcs⟩ := Option.map_eq_some'.mp h
      have hout := onepassLoop_sizes r v p qsize
        ((v.length + 2) * (v.length + r.length + 2))
        ⟨List.replicate qsize none, List.replicate qsize none, 0, 0, 0, 0, []⟩ out
        (le_refl 0) (Nat.zero_le _) rfl (by simp)
        (by
          intro j e he
          rw [getD_replicate] at he
          split at he <;> exact absurd he (by simp))
        (by
          intro j e he
          rw [getD_replicate] at he
          split at he <;> exact absurd he (by simp))
        hloop
      subst hcs
      constructor
      · rw [output_size_append, hout.1]
        split
        · rename_i hlt
          rw [output_size_singleton]
          simp only [cmdLen, List.length_drop]
          omega
        · rename_i hlt
          have := hout.2.1
          simp only [output_size, List.map_nil, List.sum_nil]
          omega
      · intro c hc
        rcases List.mem_append.mp hc with hc | hc
        · exact hout.2.2 c hc
        · split at hc
          · simp at hc
            subst hc
            simp [CmdInBounds]
          · simp at hc
  · -- correcting
    intro r v p cap f_size buf_cap cs h
    simp only [diff_correctingCore] at h
    split at h
    · rename_i hv0
      injection h with h'
      subst h'
      rw [hv0]
      exact ⟨rfl, by simp⟩
    · obtain ⟨out, hloop, hcs⟩ := Option.map_eq_some'.mp h
      have htbl : ∀ slot e,
          (correctingBuild r p (if p ≤ r.length then r.length - p + 1 else 0) cap f_size
            (if f_size ≤ cap then 1 else (f_size + cap - 1) / cap)
            (if p ≤ v.length then
              fingerprint v (v.length / 2) p % f_size %
                (if f_size ≤ cap then 1 else (f_size + cap - 1) / cap)
            else 0)).getD slot none = some e →
          e.2 + p ≤ r.length := by
        apply correctingBuild_mem
        intro a ha
        by_cases hpr : p ≤ r.length
        · rw [if_pos hpr] at ha
          omega
        · rw [if_neg hpr] at ha
          omega
      have hout := correctingLoop_sizes r v p cap f_size _ _ buf_cap _ htbl
        (v.length + 1) 0 0 [] [] out (le_refl 0) (Nat.zero_le _) rfl (by simp) hloop
      subst hcs
      obtain ⟨hflush, hflushb⟩ := flushBuf_spec r.length out.2.1 out.2.2 _ out.1
        hout.1 rfl hout.2.2
      constructor
      · rw [output_size_append, hflush]
        split
        · rename_i hlt
          rw [output_size_singleton]
          simp only [cmdLen, List.length_drop]
          omega
        · rename_i hlt
          have := hout.2.1
          simp only [output_size, List.map_nil, List.sum_nil]
          omega
      · intro c hc
        rcases List.mem_append.mp hc with hc | hc
        · exact hflushb c hc
        · split at hc
          · simp at hc
            subst hc
            simp [CmdInBounds]
          · simp at hc

/-- C10, witness: the three bounds-and-size facts at `R = [1,2,3,4]`,
`V = [2,3,4,9]`, `p = 2` (one-pass table size 5; correcting parameters
`cap = 7`, `f_size = 11`, `buf_cap = 256`). -/
theorem c10_copy_bounds_and_sizes_witness :
    (output_size (diff_greedy [1,2,3,4] [2,3,4,9] 2) = 4 ∧
      ∀ c ∈ diff_greedy [1,2,3,4] [2,3,4,9] 2, CmdInBounds 4 c) ∧
    (output_size [Command.Copy 1 3, Command.Add [9]] = 4 ∧
      ∀ c ∈ [Command.Copy 1 3, Command.Add [9]], CmdInBounds 4 c) ∧
    (output_size [Command.Add [2,3,4,9]] = 4 ∧
      ∀ c ∈ [Command.Add [2,3,4,9]], CmdInBounds 4 c) :=
  ⟨c10_copy_bounds_and_sizes.1 [1,2,3,4] [2,3,4,9] 2,
   c10_copy_bounds_and_sizes.2.1 [1,2,3,4] [2,3,4,9] 2 5
     [Command.Copy 1 3, Command.Add [9]] (by rfl),
   c10_copy_bounds_and_sizes.2.2 [1,2,3,4] [2,3,4,9] 2 7 11 256
     [Command.Add [2,3,4,9]] (by rfl)⟩

/-! ### Identity deltas (R = V): extension runs to the end -/

theorem extendFwdF_self (s : List Nat) :
    ∀ fuel c ml, c + ml ≤ s.length → s.length ≤ c + ml + fuel →
      extendFwdF fuel s s c c ml = s.length - c := by
  intro fuel
  induction fuel with
  | zero =>
      intro c ml h1 h2
      unfold extendFwdF
      omega
  | succ n ih =>
      intro c ml h1 h2
      unfold extendFwdF
      by_cases hlt : c + ml < s.length
      · rw [if_pos ⟨hlt, hlt, rfl⟩]
        exact ih c (ml + 1) (by omega) (by omega)
      · rw [if_neg (by
          intro hc
          exact hlt hc.1)]
        omega

theorem extendBwdF_self (s : List Nat) :
    ∀ fuel c bwd, bwd ≤ c → c - bwd ≤ fuel →
      extendBwdF fuel s s c c bwd = c := by
  intro fuel
  induction fuel with
  | zero =>
      intro c bwd h1 h2
      unfold extendBwdF
      omega
  | succ n ih =>
      intro c bwd h1 h2
      unfold extendBwdF
      by_cases hlt : bwd + 1 ≤ c
      · rw [if_pos ⟨hlt, hlt, rfl⟩]
        exact ih c (bwd + 1) (by omega) (by omega)
      · rw [if_neg (by
          intro hc
          exact hlt hc.1)]
        omega

theorem greedyLoop_stop (r v : List Nat) (p fuel vc vs : Nat) (acc : List Command)
    (h : v.length < vc + p) : greedyLoop r v p fuel vc vs acc = (acc, vs) := by
  cases fuel with
  | zero => rfl
  | succ n =>
      simp only [greedyLoop]
      rw [if_pos h]

theorem greedyPick_identity (s : List Nat) (p : Nat) (hp : 1 ≤ p)
    (hps : p ≤ s.length) : greedyPick s s p 0 = (some 0, s.length) := by
  unfold greedyPick
  have hml0 : extendFwdF (s.length + 1) s s 0 0 p = s.length := by
    have := extendFwdF_self s (s.length + 1) 0 p (by omega) (by omega)
    simpa using this
  have hcand : greedyCandidates s p (fingerprint s 0 p) =
      0 :: ((List.range (s.length - p)).map Nat.succ).filter
        (fun a => decide (fingerprint s a p = fingerprint s 0 p)) := by
    unfold greedyCandidates
    have hn : s.length + 1 - p = (s.length - p) + 1 := by omega
    rw [hn, List.range_succ_eq_map]
    rw [List.filter_cons]
    simp
  rw [hcand]
  simp only [List.foldl_cons, if_true]
  rw [hml0]
  rw [if_pos (by omega : (0 : Nat) < s.length)]
  have hrest : ∀ (l : List Nat), (∀ a ∈ l, a + p ≤ s.length) →
      l.foldl
        (fun best rcand =>
          if (s.drop rcand).take p = (s.drop 0).take p then
            let ml := extendFwdF (s.length + 1) s s rcand 0 p
            if best.2 < ml then (some rcand, ml) else best
          else best)
        (some 0, s.length) = (some 0, s.length) := by
    intro l
    induction l with
    | nil => intro _; rfl
    | cons a rest ih =>
        intro hl
        simp only [List.foldl_cons]
        have hb := extendFwdF_bounds s s (s.length + 1) a 0 p (by omega)
          (hl a (List.mem_cons_self _ _))
        by_cases hbytes : (s.drop a).take p = (s.drop 0).take p
        · rw [if_pos hbytes]
          rw [if_neg (by omega)]
          exact ih fun x hx => hl x (List.mem_cons_of_mem _ hx)
        · rw [if_neg hbytes]
          exact ih fun x hx => hl x (List.mem_cons_of_mem _ hx)
  apply hrest
  intro a ha
  have := (List.mem_filter.mp ha).1
  obtain ⟨b, hb, hba⟩ := List.mem_map.mp this
  have := List.mem_range.mp hb
  omega

theorem diff_greedy_identity (s : List Nat) (p : Nat) (hp : 1 ≤ p)
    (hps : p ≤ s.length) : diff_greedy s s p = [Command.Copy 0 s.length] := by
  simp only [diff_greedy]
  rw [if_neg (by omega : ¬ s.length = 0)]
  have hloop : greedyLoop s s p (s.length + 1) 0 0 [] =
      ([Command.Copy 0 s.length], s.length) := by
    simp only [greedyLoop]
    rw [if_neg (by omega : ¬ s.length < 0 + p)]
    rw [greedyPick_identity s p hp hps]
    rw [if_neg (by simp only; omega)]
    simp only [if_neg (by omega : ¬ (0 : Nat) < 0), Option.getD_some, List.nil_append]
    rw [greedyLoop_stop s s p s.length (0 + s.length) (0 + s.length) _ (by omega)]
    simp
  rw [hloop]
  rw [if_neg (by omega : ¬ s.length < s.length)]
  simp

theorem diff_onepassCore_identity (s : List Nat) (p qsize : Nat) (hp : 1 ≤ p)
    (hps : p ≤ s.length) (hq : 1 ≤ qsize) :
    diff_onepassCore s s p qsize = some [Command.Copy 0 s.length] := by
  have hidx : fingerprint s 0 p % qsize < qsize := Nat.mod_lt _ (by omega)
  have hrepl : (List.replicate qsize (none : Option (Nat × Nat × Nat))).getD
      (fingerprint s 0 p % qsize) none = none := by
    rw [getD_replicate]
    split <;> rfl
  have hput : ht_put (List.replicate qsize none) (fingerprint s 0 p) 0 qsize 0 =
      (List.replicate qsize none).set (fingerprint s 0 p % qsize)
        (some (fingerprint s 0 p, 0, 0)) := by
    simp only [ht_put]
    rw [hrepl]
  have hget : ht_get ((List.replicate qsize none).set (fingerprint s 0 p % qsize)
      (some (fingerprint s 0 p, 0, 0))) (fingerprint s 0 p) qsize 0 = some 0 := by
    simp only [ht_get]
    rw [getD_set_eq _ _ _ _ (by simpa using hidx)]
    simp
  have hml : extendFwdF (s.length + 1) s s 0 0 0 = s.length := by
    have := extendFwdF_self s (s.length + 1) 0 0 (by omega) (by omega)
    simpa using this
  simp only [diff_onepassCore]
  rw [if_neg (by omega : ¬ s.length = 0)]
  obtain ⟨m, hm⟩ : ∃ m, (s.length + 2) * (s.length + s.length + 2) = m + 2 := by
    refine ⟨(s.length + 2) * (s.length + s.length + 2) - 2, ?_⟩
    have h2 : (1 : Nat) * 2 ≤ (s.length + 2) * (s.length + s.length + 2) :=
      Nat.mul_le_mul (by omega) (by omega)
    omega
  rw [hm]
  have hstep : onepassLoop s s p qsize (m + 2)
      ⟨List.replicate qsize none, List.replicate qsize none, 0, 0, 0, 0, []⟩ =
      some ([Command.Copy 0 s.length], s.length) := by
    rw [onepassLoop]
    simp only
    rw [if_neg (by
      intro hc
      exact hc.1 (by omega))]
    rw [if_pos (show 0 + p ≤ s.length by omega)]
    simp only [hput]
    have hfind : onepassFindMatch s s p qsize
        ⟨(List.replicate qsize none).set (fingerprint s 0 p % qsize)
            (some (fingerprint s 0 p, 0, 0)),
          (List.replicate qsize none).set (fingerprint s 0 p % qsize)
            (some (fingerprint s 0 p, 0, 0)), 0, 0, 0, 0, []⟩
        (some (fingerprint s 0 p)) (some (fingerprint s 0 p)) = some (0, 0) := by
      simp only [onepassFindMatch]
      rw [hget]
      simp
    rw [hfind]
    simp only [hml]
    rw [if_neg (by omega : ¬ s.length < p)]
    rw [if_neg (by omega : ¬ (0 : Nat) < 0)]
    rw [onepassLoop]
    rw [if_pos (show ¬(0 + s.length + p ≤ s.length) ∧ ¬(0 + s.length + p ≤ s.length) by
      constructor <;> omega)]
    simp
  rw [hstep]
  simp


theorem pushBuf_nil (acc : List Command) (cap : Nat) (e : BufEntry) :
    pushBuf [] acc cap e = ([e], acc) := by
  unfold pushBuf
  split <;> simp

theorem correctingBuild_skip (r : List Nat) (p f_size m k cap : Nat) :
    ∀ (l : List Nat) (tbl : List (Option (Nat × Nat))),
      (∀ a ∈ l, ¬ (fingerprint r a p % f_size % m = k)) →
      l.foldl
        (fun tbl a =>
          let fp := fingerprint r a p
          let f := fp % f_size
          if f % m ≠ k then tbl
          else
            let i := f / m
            if cap ≤ i then tbl
            else
              match tbl.getD i none with
              | none => tbl.set i (some (fp, a))
              | some _ => tbl)
        tbl = tbl := by
  intro l
  induction l with
  | nil => intro tbl _; rfl
  | cons a rest ih =>
      intro tbl hl
      simp only [List.foldl_cons]
      rw [if_pos (hl a (List.mem_cons_self _ _))]
      exact ih tbl fun x hx => hl x (List.mem_cons_of_mem _ hx)

theorem correctingBuild_preserve (r : List Nat) (p f_size m k cap : Nat) :
    ∀ (l : List Nat) (tbl : List (Option (Nat × Nat))) (SLOT : Nat) (E : Nat × Nat),
      tbl.getD SLOT none = some E →
      (l.foldl
        (fun tbl a =>
          let fp := fingerprint r a p
          let f := fp % f_size
          if f % m ≠ k then tbl
          else
            let i := f / m
            if cap ≤ i then tbl
            else
              match tbl.getD i none with
              | none => tbl.set i (some (fp, a))
              | some _ => tbl)
        tbl).getD SLOT none = some E := by
  intro l
  induction l with
  | nil => intro tbl SLOT E h; exact h
  | cons a rest ih =>
      intro tbl SLOT E h
      simp only [List.foldl_cons]
      apply ih
      split
      · exact h
      · split
        · exact h
        · split
          · rename_i hnone
            by_cases hslot : fingerprint r a p % f_size / m = SLOT
            · rw [hslot] at hnone
              rw [hnone] at h
              exact absurd h (by simp)
            · rw [getD_set_ne _ _ _ _ _ hslot]
              exact h
          · exact h

theorem diff_correctingCore_identity (s : List Nat) (p cap f_size buf_cap : Nat)
    (hp : 1 ≤ p) (hnp : s.length / 2 + p ≤ s.length) (hcap : 1 ≤ cap)
    (hf : 1 ≤ f_size) :
    diff_correctingCore s s p cap f_size buf_cap = some [Command.Copy 0 s.length] := by
  have hp2 : p ≤ s.length := by omega
  simp only [diff_correctingCore]
  rw [if_neg (by omega : ¬ s.length = 0), if_pos hp2, if_pos hp2]
  set M := if f_size ≤ cap then 1 else (f_size + cap - 1) / cap with hM_def
  have hM : 1 ≤ M := by
    rw [hM_def]
    split
    · omega
    · exact Nat.div_pos (by omega) (by omega)
  have hMC : ∀ F, F < f_size → F / M < cap := by
    intro F hF
    rw [hM_def]
    split
    · rename_i hfc
      rw [Nat.div_one]
      omega
    · rename_i hfc
      have hdm := Nat.div_add_mod (f_size + cap - 1) cap
      have hmod := Nat.mod_lt (f_size + cap - 1) (show 0 < cap by omega)
      rw [Nat.div_lt_iff_lt_mul (Nat.div_pos (by omega) (by omega))]
      have hcm : f_size ≤ cap * ((f_size + cap - 1) / cap) := by omega
      calc F < f_size := hF
        _ ≤ cap * ((f_size + cap - 1) / cap) := hcm
  set K := fingerprint s (s.length / 2) p % f_size % M with hK_def
  have hex : ∃ a, fingerprint s a p % f_size % M = K := ⟨s.length / 2, rfl⟩
  set cstar := Nat.find hex with hc_def
  have hpass : fingerprint s cstar p % f_size % M = K := Nat.find_spec hex
  have hmin : ∀ a, a < cstar → ¬ (fingerprint s a p % f_size % M = K) :=
    fun a ha => Nat.find_min hex ha
  have hchalf : cstar ≤ s.length / 2 := Nat.find_le rfl
  have hc4 : cstar + p ≤ s.length := by omega
  have htblfact :
      (correctingBuild s p (s.length - p + 1) cap f_size M K).getD
        (fingerprint s cstar p % f_size / M) none =
        some (fingerprint s cstar p, cstar) := by
    unfold correctingBuild
    have hns : s.length - p + 1 = cstar + (s.length - p + 1 - cstar) := by omega
    rw [hns, List.range_add]
    rw [List.foldl_append]
    rw [correctingBuild_skip s p f_size M K cap (List.range cstar) _
      (fun a ha => hmin a (List.mem_range.mp ha))]
    have hrest : s.length - p + 1 - cstar = (s.length - p - cstar) + 1 := by omega
    rw [hrest, List.range_succ_eq_map]
    simp only [List.map_cons, Nat.add_zero, List.foldl_cons]
    rw [if_neg (not_not_intro hpass)]
    rw [if_neg (by
      have := hMC (fingerprint s cstar p % f_size) (Nat.mod_lt _ (by omega))
      omega)]
    rw [show (List.replicate cap (none : Option (Nat × Nat))).getD
        (fingerprint s cstar p % f_size / M) none = none by
      rw [getD_replicate]
      split <;> rfl]
    apply correctingBuild_preserve
    rw [getD_set_eq]
    simpa using hMC (fingerprint s cstar p % f_size) (Nat.mod_lt _ (by omega))
  have hfwd_self : extendFwdF (s.length + 1) s s cstar cstar p = s.length - cstar :=
    extendFwdF_self s (s.length + 1) cstar p (by omega) (by omega)
  have hbwd_self : extendBwdF (cstar + 1) s s cstar cstar 0 = cstar :=
    extendBwdF_self s (cstar + 1) cstar 0 (Nat.zero_le _) (by omega)
  have hscan : ∀ (j vc : Nat), j ≤ cstar → vc = cstar - j → ∀ fuel, j + 2 ≤ fuel →
      correctingLoop s s p cap f_size M K buf_cap
        (correctingBuild s p (s.length - p + 1) cap f_size M K) fuel vc 0 [] [] =
        some (s.length, [⟨0, s.length, Command.Copy 0 s.length, false⟩], []) := by
    intro j
    induction j with
    | zero =>
        intro vc _ hvc fuel hfuel
        obtain ⟨f2, hf2⟩ : ∃ f2, fuel = f2 + 1 + 1 := ⟨fuel - 2, by omega⟩
        subst hf2
        have hvc' : vc = cstar := by omega
        subst hvc'
        rw [correctingLoop]
        rw [if_neg (by omega : ¬ s.length < cstar + p)]
        rw [if_neg (not_not_intro hpass)]
        rw [htblfact]
        simp only
        rw [if_neg (by simp : ¬ fingerprint s cstar p ≠ fingerprint s cstar p)]
        rw [if_neg (by simp : ¬ (s.drop cstar).take p ≠ (s.drop cstar).take p)]
        rw [hfwd_self, hbwd_self]
        simp only [Nat.sub_self]
        rw [if_neg (by omega : ¬ cstar + (s.length - cstar) < p)]
        rw [if_pos (le_refl (0 : Nat))]
        rw [if_neg (by omega : ¬ (0 : Nat) < 0)]
        simp only
        rw [pushBuf_nil]
        simp only
        rw [show cstar + (s.length - cstar) = s.length by omega]
        simp only [Nat.zero_add]
        rw [correctingLoop]
        rw [if_pos (by omega : s.length < s.length + p)]
    | succ n ih =>
        intro vc hle hvc fuel hfuel
        obtain ⟨f1, hf1⟩ : ∃ f1, fuel = f1 + 1 := ⟨fuel - 1, by omega⟩
        subst hf1
        rw [correctingLoop]
        rw [if_neg (by omega : ¬ s.length < vc + p)]
        rw [if_pos (by
          have : vc < cstar := by omega
          exact hmin vc this)]
        have hnext : vc + 1 = cstar - n := by omega
        rw [hnext]
        exact ih (cstar - n) (by omega) rfl f1 (by omega)
  rw [hscan cstar 0 (le_refl _) (by omega) (s.length + 1) (by omega)]
  simp [flushBuf]

/-- C4 amended: with a positive seed length that fits in the input
(`1 ≤ p ≤ |S|`), each algorithm run on `R = V = S` emits exactly the single
command `Copy 0 |S|` — only Copies, and their output reproduces S.  The
one-pass table needs a positive size; the correcting algorithm additionally
needs `|S|/2 + p ≤ |S|` (otherwise its checkpoint fingerprint read panics,
see C1).  Without `p ≤ |S|` the claim is false (see the counterexample). -/
theorem c4_identity_amended (s : List Nat) (p : Nat) (hp : 1 ≤ p)
    (hps : p ≤ s.length) :
    diff_greedy s s p = [Command.Copy 0 s.length] ∧
    (∀ qsize, 1 ≤ qsize →
      diff_onepassCore s s p qsize = some [Command.Copy 0 s.length]) ∧
    (∀ cap f_size buf_cap, 1 ≤ cap → 1 ≤ f_size → s.length / 2 + p ≤ s.length →
      diff_correctingCore s s p cap f_size buf_cap = some [Command.Copy 0 s.length]) ∧
    apply_delta s [Command.Copy 0 s.length] = s := by
  refine ⟨diff_greedy_identity s p hp hps,
    fun qsize hq => diff_onepassCore_identity s p qsize hp hps hq,
    fun cap f_size buf_cap hcap hf hnp =>
      diff_correctingCore_identity s p cap f_size buf_cap hp hnp hcap hf, ?_⟩
  show ((([Command.Copy 0 s.length]).map (cmdOut s)).flatten) = s
  simp only [List.map_cons, List.map_nil, List.flatten, List.append_nil]
  show (List.range s.length).map (fun i => s.getD (0 + i) 0) = s
  apply List.ext_getElem
  · simp
  · intro i h1 h2
    simp only [List.getElem_map, List.getElem_range, Nat.zero_add]
    rw [List.getD_eq_getElem s 0 (by simpa using h2)]

/-- C4 amended, witness: the three identity runs and the reconstruction at
`S = [3,1,4,1,5,9]`, `p = 2` (one-pass table size 5; correcting `cap = 7`,
`f_size = 11`, `buf_cap = 256`). -/
theorem c4_identity_amended_witness :
    diff_greedy [3,1,4,1,5,9] [3,1,4,1,5,9] 2 = [Command.Copy 0 6] ∧
    diff_onepassCore [3,1,4,1,5,9] [3,1,4,1,5,9] 2 5 = some [Command.Copy 0 6] ∧
    diff_correctingCore [3,1,4,1,5,9] [3,1,4,1,5,9] 2 7 11 256 =
      some [Command.Copy 0 6] ∧
    apply_delta [3,1,4,1,5,9] [Command.Copy 0 6] = [3,1,4,1,5,9] :=
  ⟨(c4_identity_amended [3,1,4,1,5,9] 2 (by decide) (by decide)).1,
   (c4_identity_amended [3,1,4,1,5,9] 2 (by decide) (by decide)).2.1 5 (by decide),
   (c4_identity_amended [3,1,4,1,5,9] 2 (by decide) (by decide)).2.2.1 7 11 256
     (by decide) (by decide) (by decide),
   (c4_identity_amended [3,1,4,1,5,9] 2 (by decide) (by decide)).2.2.2⟩
